import Mathlib

/-!
Verification of the address-format conversion engine of the Injective
Analytic API repository (`app/services/wallet_service.py`, its router
`app/routers/wallet.py`, and the reference `bech32` codec the service
drives).  All functions are shallowly embedded: Python byte strings become
`List Nat` (each element `< 256`), bech32 5-bit groups become `List Nat`
(each element `< 32`), Python `str` becomes `String`, and raised
`ValueError`s become the `Except String` error monad carrying the
exception message.
-/

deriving instance DecidableEq for Except

namespace WalletVerify

set_option maxRecDepth 1000000

/-! ## Definitions -/

/-! ### Bit-level utilities

`natToBits w v` is the `w`-bit, most-significant-bit-first binary
expansion of `v`; `bitsToNat` reads such an expansion back.  `groupN k`
regroups a bit stream into `k`-bit values.  These are the specification
devices used to reason about the `convertbits` regrouping loop of the
bech32 codec. -/

/-- The `w`-bit binary representation of `v`, most significant bit first. -/
def natToBits : Nat → Nat → List Bool
  | 0, _ => []
  | w+1, v => v.testBit w :: natToBits w v

/-- Value of a bit list, read most significant bit first. -/
def bitsToNat (l : List Bool) : Nat :=
  l.foldl (fun a b => 2 * a + (if b then 1 else 0)) 0

/-- Recursion core of `groupN` over a fuel argument (any bound on the list
length), so that the function reduces by iota on closed input. -/
def groupNF (k : Nat) : Nat → List Bool → List Nat
  | _, [] => []
  | 0, _ :: _ => []
  | fuel+1, b :: l =>
    if k = 0 then [] else bitsToNat ((b :: l).take k) :: groupNF k fuel (l.drop (k-1))

/-- Regroup a bit stream into `k`-bit values (most significant bit first);
the final group, if incomplete, is read as-is. -/
def groupN (k : Nat) (l : List Bool) : List Nat := groupNF k l.length l

/-! ### The `convertbits` regrouping loop (reference bech32 library)

Embeds `convertbits(data, frombits, tobits, pad)` from the `bech32`
Python package (the BIP-173 reference implementation) that
`wallet_service.py` drives with `(8, 5, pad=True)` for encoding and
`(5, 8, pad=False)` for decoding. -/

/-- The inner `while bits >= tobits` loop of `convertbits`: repeatedly emits
the top `tobits` bits of the pending window.  The Python loop diverges for
`tobits = 0`, so the guard requires `0 < tobits` to make the embedding
total; the codebase only ever calls it with 5 and 8. -/
def emitLoopF (tobits maxv acc : Nat) : Nat → Nat → List Nat → Nat × List Nat
  | 0, bits, ret => (bits, ret)
  | fuel+1, bits, ret =>
    if 0 < tobits ∧ tobits ≤ bits then
      emitLoopF tobits maxv acc fuel (bits - tobits)
        (ret ++ [(acc >>> (bits - tobits)) &&& maxv])
    else (bits, ret)

def emitLoop (tobits maxv acc : Nat) (bits : Nat) (ret : List Nat) : Nat × List Nat :=
  emitLoopF tobits maxv acc bits bits ret

/-- The main `for value in data` loop of `convertbits`, carrying the Python
local variables `acc`, `bits` and `ret`; returns `none` where the Python
code returns `None` (an input value out of range). -/
def convertbitsAux (frombits tobits maxv max_acc : Nat) :
    List Nat → Nat → Nat → List Nat → Option (List Nat × Nat × Nat)
  | [], acc, bits, ret => some (ret, acc, bits)
  | v :: rest, acc, bits, ret =>
    if 2 ^ frombits ≤ v then none
    else
      convertbitsAux frombits tobits maxv max_acc rest
        (((acc <<< frombits) ||| v) &&& max_acc)
        (emitLoop tobits maxv (((acc <<< frombits) ||| v) &&& max_acc)
          (bits + frombits) ret).1
        (emitLoop tobits maxv (((acc <<< frombits) ||| v) &&& max_acc)
          (bits + frombits) ret).2

/-- `convertbits` from the reference bech32 library: regroup `data` from
`frombits`-bit values into `tobits`-bit values, zero-padding the final
group when `pad` is true and rejecting non-zero leftover bits when `pad`
is false. -/
def convertbits (data : List Nat) (frombits tobits : Nat) (pad : Bool := true) :
    Option (List Nat) :=
  match convertbitsAux frombits tobits ((1 <<< tobits) - 1) ((1 <<< (frombits + tobits - 1)) - 1)
      data 0 0 [] with
  | none => none
  | some (ret, acc, bits) =>
    if pad then
      if bits ≠ 0 then some (ret ++ [(acc <<< (tobits - bits)) &&& ((1 <<< tobits) - 1)])
      else some ret
    else if frombits ≤ bits ∨ ((acc <<< (tobits - bits)) &&& ((1 <<< tobits) - 1)) ≠ 0 then
      none
    else some ret

/-! ### The bech32 codec

Embeds the remaining functions of the reference `bech32` Python package:
`bech32_polymod`, `bech32_hrp_expand`, `bech32_verify_checksum`,
`bech32_create_checksum`, `bech32_encode` and `bech32_decode`. -/

/-- The 32-character bech32 data alphabet. -/
def CHARSET : List Char := "qpzry9x8gf2tvdw0s3jn54khce6mua7l".data

/-- One step of the `for value in values` loop of `bech32_polymod`, with the
inner `for i in range(5)` generator loop unrolled. -/
def polymodStep (chk value : Nat) : Nat :=
  let top := chk >>> 25
  let c0 := ((chk &&& 0x1ffffff) <<< 5) ^^^ value
  let c1 := if (top >>> 0) &&& 1 = 1 then c0 ^^^ 0x3b6a57b2 else c0
  let c2 := if (top >>> 1) &&& 1 = 1 then c1 ^^^ 0x26508e6d else c1
  let c3 := if (top >>> 2) &&& 1 = 1 then c2 ^^^ 0x1ea119fa else c2
  let c4 := if (top >>> 3) &&& 1 = 1 then c3 ^^^ 0x3d4233dd else c3
  if (top >>> 4) &&& 1 = 1 then c4 ^^^ 0x2a1462b3 else c4

/-- The bech32 checksum polynomial accumulator. -/
def bech32_polymod (values : List Nat) : Nat := values.foldl polymodStep 1

/-- Expansion of the human-readable part for checksum computation. -/
def bech32_hrp_expand (hrp : List Char) : List Nat :=
  hrp.map (fun c => c.toNat >>> 5) ++ [0] ++ hrp.map (fun c => c.toNat &&& 31)

def bech32_verify_checksum (hrp : List Char) (data : List Nat) : Bool :=
  bech32_polymod (bech32_hrp_expand hrp ++ data) == 1

/-- Checksum creation (`for i in range(6)` unrolled). -/
def bech32_create_checksum (hrp : List Char) (data : List Nat) : List Nat :=
  [(((bech32_polymod (bech32_hrp_expand hrp ++ data ++ [0, 0, 0, 0, 0, 0])) ^^^ 1) >>> 25) &&& 31,
   (((bech32_polymod (bech32_hrp_expand hrp ++ data ++ [0, 0, 0, 0, 0, 0])) ^^^ 1) >>> 20) &&& 31,
   (((bech32_polymod (bech32_hrp_expand hrp ++ data ++ [0, 0, 0, 0, 0, 0])) ^^^ 1) >>> 15) &&& 31,
   (((bech32_polymod (bech32_hrp_expand hrp ++ data ++ [0, 0, 0, 0, 0, 0])) ^^^ 1) >>> 10) &&& 31,
   (((bech32_polymod (bech32_hrp_expand hrp ++ data ++ [0, 0, 0, 0, 0, 0])) ^^^ 1) >>> 5) &&& 31,
   ((bech32_polymod (bech32_hrp_expand hrp ++ data ++ [0, 0, 0, 0, 0, 0])) ^^^ 1) &&& 31]

/-- `bech32_encode(hrp, data)`: builds `hrp + "1" + chars`.  The reference
implementation never fails and never returns `None`; indexing `CHARSET[d]`
is total here via a default because every call site supplies 5-bit values. -/
def bech32_encode (hrp : String) (data : List Nat) : String :=
  ⟨hrp.data ++ '1' :: (data ++ bech32_create_checksum hrp.data data).map
    (fun d => CHARSET.getD d 'q')⟩

/-- ASCII lowering as performed by Python `str.lower` on the ASCII range
(the decoder guards its input to printable ASCII before lowering). -/
def pyToLower (c : Char) : Char :=
  if 65 ≤ c.toNat ∧ c.toNat ≤ 90 then Char.ofNat (c.toNat + 32) else c

/-- ASCII raising as performed by Python `str.upper` on the ASCII range. -/
def pyToUpper (c : Char) : Char :=
  if 97 ≤ c.toNat ∧ c.toNat ≤ 122 then Char.ofNat (c.toNat - 32) else c

def pyStrLower (s : String) : String := ⟨s.data.map pyToLower⟩

def pyStrUpper (s : String) : String := ⟨s.data.map pyToUpper⟩

/-- Index of the last `'1'` in the list (Python `str.rfind("1")`, with
`none` standing for the `-1` "not found" result). -/
def lastOneIdx : List Char → Option Nat
  | [] => none
  | c :: rest =>
    match lastOneIdx rest with
    | some i => some (i + 1)
    | none => if c = '1' then some 0 else none

/-- `CHARSET.find(x)` of Python.  Python returns `-1` when the character is
absent, but the only call is guarded by an all-in-CHARSET check, on which
the `Nat`-valued `findIdx` (returning 32 when absent) agrees with it. -/
def charsetIdx (c : Char) : Nat := CHARSET.findIdx (fun x => x == c)

/-- `bech32_decode(bech)`: validates character range, case uniformity,
separator position, length bounds, data alphabet and checksum; returns the
human-readable part and the 5-bit data values without the 6 checksum
values.  `none` models Python's `(None, None)`. -/
def bech32_decode (bech : String) : Option (String × List Nat) :=
  if bech.data.any (fun c => c.toNat < 33 ∨ 126 < c.toNat) then none
  else if bech.data.map pyToLower ≠ bech.data ∧ bech.data.map pyToUpper ≠ bech.data then
    none
  else
    match lastOneIdx (bech.data.map pyToLower) with
    | none => none
    | some pos =>
      if pos < 1 ∨ pos + 7 > bech.data.length ∨ bech.data.length > 90 then none
      else if ((bech.data.map pyToLower).drop (pos + 1)).all
          (fun c => CHARSET.contains c) then
        if bech32_verify_checksum ((bech.data.map pyToLower).take pos)
            (((bech.data.map pyToLower).drop (pos + 1)).map charsetIdx) then
          some (⟨(bech.data.map pyToLower).take pos⟩,
                (((bech.data.map pyToLower).drop (pos + 1)).map charsetIdx).take
                  ((((bech.data.map pyToLower).drop (pos + 1)).map charsetIdx).length - 6))
        else none
      else none

/-! ### Hex utilities (`bytes.fromhex`, `bytes.hex`) -/

/-- ASCII whitespace, which Python `bytes.fromhex` skips between pairs. -/
def isAsciiSpace (c : Char) : Bool :=
  c.toNat = 32 ∨ c.toNat = 9 ∨ c.toNat = 10 ∨ c.toNat = 13 ∨ c.toNat = 11 ∨ c.toNat = 12

/-- Value of one hex digit, `none` for a non-hex character. -/
def hexVal (c : Char) : Option Nat :=
  if 48 ≤ c.toNat ∧ c.toNat ≤ 57 then some (c.toNat - 48)
  else if 97 ≤ c.toNat ∧ c.toNat ≤ 102 then some (c.toNat - 87)
  else if 65 ≤ c.toNat ∧ c.toNat ≤ 70 then some (c.toNat - 55)
  else none

/-- Python `bytes.fromhex`: ASCII whitespace may appear around byte pairs
but not inside one; `none` models the `ValueError` on malformed input. -/
def bytesFromHexAux : List Char → Option (List Nat)
  | [] => some []
  | c1 :: rest =>
    if isAsciiSpace c1 then bytesFromHexAux rest
    else
      match rest with
      | [] => none
      | c2 :: rest2 =>
        match hexVal c1, hexVal c2 with
        | some v1, some v2 =>
          match bytesFromHexAux rest2 with
          | some bs => some ((16 * v1 + v2) :: bs)
          | none => none
        | _, _ => none

def bytesFromHex (s : String) : Option (List Nat) := bytesFromHexAux s.data

/-- One lowercase hex digit (`0`-`9`, `a`-`f`) for a value below 16. -/
def hexDigitChar (n : Nat) : Char :=
  if n < 10 then Char.ofNat (48 + n) else Char.ofNat (87 + n)

def byteToHexChars (b : Nat) : List Char :=
  [hexDigitChar (b / 16), hexDigitChar (b % 16)]

/-- Python `bytes.hex()`: lowercase, two digits per byte. -/
def bytesToHex (bs : List Nat) : String := ⟨bs.flatMap byteToHexChars⟩

/-! ### The wallet conversion service (`app/services/wallet_service.py`)

Python regular-expression matching is embedded with `re.match` semantics:
the patterns are anchored with `$`, which in Python also matches just
before a single trailing newline, hence the `pyMatchEnd` wrapper.
`ValueError` exceptions become `Except.error` carrying the message. -/

/-- `INJECTIVE_PREFIX` of the source (shortened name). -/
def INJ_PFX : String := "inj"

/-- One character of the class `[0-9a-fA-F]`. -/
def isHexChar (c : Char) : Bool :=
  (48 ≤ c.toNat ∧ c.toNat ≤ 57) ∨ (97 ≤ c.toNat ∧ c.toNat ≤ 102) ∨
    (65 ≤ c.toNat ∧ c.toNat ≤ 70)

/-- One character of the class `[a-z]`. -/
def isLowerAlpha (c : Char) : Bool := 97 ≤ c.toNat ∧ c.toNat ≤ 122

/-- One character of the class `[a-z0-9]`. -/
def isLowerAlnum (c : Char) : Bool :=
  isLowerAlpha c ∨ (48 ≤ c.toNat ∧ c.toNat ≤ 57)

/-- Full match of the regex body `0x[0-9a-fA-F]{40}`. -/
def evmCore (l : List Char) : Bool :=
  decide (l.length = 42) && decide (l.take 2 = ['0', 'x']) && (l.drop 2).all isHexChar

/-- Full match of the regex body `[a-z]+1[a-z0-9]{38,}`.  Because `'1'` is
not a lowercase letter, the `[a-z]+` group can only stop at the first
`'1'` of the string. -/
def bechCore (l : List Char) : Bool :=
  decide (l.takeWhile (fun c => c ≠ '1') ≠ []) &&
  (l.takeWhile (fun c => c ≠ '1')).all isLowerAlpha &&
  decide ((l.takeWhile (fun c => c ≠ '1')).length < l.length) &&
  (l.drop ((l.takeWhile (fun c => c ≠ '1')).length + 1)).all isLowerAlnum &&
  decide (38 ≤ (l.drop ((l.takeWhile (fun c => c ≠ '1')).length + 1)).length)

/-- Python `re.match` with a `$`-anchored pattern: the body must match the
whole string, or the whole string minus one trailing newline. -/
def pyMatchEnd (core : List Char → Bool) (l : List Char) : Bool :=
  core l || (decide (l.getLast? = some (Char.ofNat 10)) && core l.dropLast)

/-- `EVM_ADDRESS_REGEX.match(s)` as a Boolean. -/
def evmMatch (s : String) : Bool := pyMatchEnd evmCore s.data

/-- `BECH32_ADDRESS_REGEX.match(s)` as a Boolean. -/
def bechMatch (s : String) : Bool := pyMatchEnd bechCore s.data

/-- `address.split("1", 1)[0]`: the text before the first `'1'`, or the
whole string when no `'1'` occurs. -/
def beforeFirstOne (s : String) : String := ⟨s.data.takeWhile (fun c => c ≠ '1')⟩

/-- `WalletConversionResponse` (`app/models/wallet.py`); the field
`source_chain_prefix` is shortened to `source_chain_pfx`. -/
structure WalletConversionResponse where
  input_address : String
  injective_address : String
  evm_address : String
  source_type : String
  source_chain_pfx : Option String
deriving DecidableEq

/-- `detect_address_type`. -/
def detect_address_type (address : String) : Except String (String × Option String) :=
  if evmMatch address then Except.ok ("evm", none)
  else if bechMatch address then
    if beforeFirstOne address = INJ_PFX then Except.ok ("injective", some INJ_PFX)
    else Except.ok ("cosmos", some (beforeFirstOne address))
  else
    Except.error ("Unrecognised address format: \x27" ++ address ++
      "\x27. Expected a 0x hex address or a bech32 address (e.g. inj1..., cosmos1..., osmo1...).")

/-- `_decode_bech32`.  The truthiness test `if expected_prefix and
prefix != expected_prefix` treats both `None` and the empty string as
falsy, captured by `Option.getD` with default `""`. -/
def decode_bech32 (address : String) (expected_pfx : Option String) :
    Except String (List Nat) :=
  match bech32_decode address with
  | none => Except.error ("Invalid bech32 address: \x27" ++ address ++ "\x27")
  | some (pfxd, data) =>
    if expected_pfx.getD "" ≠ "" ∧ pfxd ≠ expected_pfx.getD "" then
      Except.error ("Expected prefix \x27" ++ expected_pfx.getD "" ++ "\x27, got \x27" ++
        pfxd ++ "\x27 in address \x27" ++ address ++ "\x27")
    else
      match convertbits data 5 8 false with
      | none =>
        Except.error ("Failed to decode bech32 data for address: \x27" ++ address ++ "\x27")
      | some addr_bytes =>
        if addr_bytes.length ≠ 20 then
          Except.error ("Invalid address length: expected 20 bytes, got " ++
            toString addr_bytes.length ++ " for \x27" ++ address ++ "\x27")
        else Except.ok addr_bytes

/-- `evm_to_injective`.  The `none` branches model exceptions on paths that
are unreachable under the regex guard (`bytes.fromhex` cannot fail on hex
input, and `convertbits(_, 8, 5, pad=True)` cannot fail on bytes). -/
def evm_to_injective (hex_address : String) : Except String String :=
  if evmMatch hex_address then
    match bytesFromHex ⟨hex_address.data.drop 2⟩ with
    | none => Except.error ("non-hexadecimal number found in fromhex() arg")
    | some addr_bytes =>
      match convertbits addr_bytes 8 5 true with
      | none => Except.error ("Failed to bech32-encode address: " ++ hex_address)
      | some data5 => Except.ok (bech32_encode INJ_PFX data5)
  else
    Except.error ("Invalid EVM address: \x27" ++ hex_address ++
      "\x27. Must be 0x followed by 40 hex characters.")

/-- `injective_to_evm`. -/
def injective_to_evm (inj_address : String) : Except String String :=
  match decode_bech32 inj_address (some INJ_PFX) with
  | Except.error e => Except.error e
  | Except.ok addr_bytes => Except.ok ("0x" ++ bytesToHex addr_bytes)

/-- `cosmos_to_injective`. -/
def cosmos_to_injective (bech32_address : String) : Except String String :=
  match decode_bech32 bech32_address none with
  | Except.error e => Except.error e
  | Except.ok addr_bytes =>
    match convertbits addr_bytes 8 5 true with
    | none => Except.error ("Failed to bech32-encode address: " ++ bech32_address)
    | some data5 => Except.ok (bech32_encode INJ_PFX data5)

/-- `injective_to_cosmos`.  Note that `bech32_encode` never fails, so the
error branch (modelling `if converted is None`) is dead code: no validation
of the caller-supplied target chain indicator happens. -/
def injective_to_cosmos (inj_address : String) (target_pfx : String) :
    Except String String :=
  match decode_bech32 inj_address (some INJ_PFX) with
  | Except.error e => Except.error e
  | Except.ok addr_bytes =>
    match convertbits addr_bytes 8 5 true with
    | none => Except.error ("Failed to encode with prefix \x27" ++ target_pfx ++ "\x27")
    | some data5 => Except.ok (bech32_encode target_pfx data5)

/-- `convert_address`. -/
def convert_address (address : String) : Except String WalletConversionResponse :=
  match detect_address_type address with
  | Except.error e => Except.error e
  | Except.ok (source_type, chain_pfx) =>
    if source_type = "evm" then
      match evm_to_injective address with
      | Except.error e => Except.error e
      | Except.ok inj_addr =>
        Except.ok ⟨address, inj_addr, pyStrLower address, source_type, chain_pfx⟩
    else if source_type = "injective" then
      match injective_to_evm address with
      | Except.error e => Except.error e
      | Except.ok evm_addr =>
        Except.ok ⟨address, address, evm_addr, source_type, chain_pfx⟩
    else
      match cosmos_to_injective address with
      | Except.error e => Except.error e
      | Except.ok inj_addr =>
        match injective_to_evm inj_addr with
        | Except.error e => Except.error e
        | Except.ok evm_addr =>
          Except.ok ⟨address, inj_addr, evm_addr, source_type, chain_pfx⟩

/-- `BatchConversionResponse` (`app/models/wallet.py`); an error entry
`{"address": ..., "error": ...}` becomes a pair. -/
structure BatchConversionResponse where
  conversions : List WalletConversionResponse
  total : Nat
  errors : List (String × String)
deriving DecidableEq

/-- Loop body of `batch_convert_addresses` (`app/routers/wallet.py`). -/
def batchStep (acc : List WalletConversionResponse × List (String × String))
    (addr : String) : List WalletConversionResponse × List (String × String) :=
  match convert_address addr with
  | Except.ok r => (acc.1 ++ [r], acc.2)
  | Except.error e => (acc.1, acc.2 ++ [(addr, e)])

/-- `batch_convert_addresses` (`app/routers/wallet.py`): convert each
address independently, collecting successes and failures in order. -/
def batch_convert_addresses (addresses : List String) : BatchConversionResponse :=
  { conversions := (addresses.foldl batchStep ([], [])).1,
    total := (addresses.foldl batchStep ([], [])).1.length,
    errors := (addresses.foldl batchStep ([], [])).2 }

/-! ### Hex parsing and formatting lemmas -/

/-- Reference pairing of an even-length hex-character list into bytes. -/
def hexPairs : List Char → List Nat
  | c1 :: c2 :: rest => (16 * (hexVal c1).getD 0 + (hexVal c2).getD 0) :: hexPairs rest
  | _ => []

/-! ### Regrouping a 20-byte address -/

/-- The 32 five-bit groups of a 20-byte address. -/
def groupsOf (b : List Nat) : List Nat := groupN 5 (b.flatMap (natToBits 8))

/-! ### Service-function characterizations -/

/-- The claim-side reading of "hex-parse an EVM address string": strip the
`0x` and run the code's own `bytes.fromhex`. -/
def parseEvmHex (s : String) : Option (List Nat) :=
  if s.data.take 2 = ['0', 'x'] then bytesFromHex ⟨s.data.drop 2⟩ else none

/-! ### Regex matcher correctness

The declarative languages of the two patterns, and equivalence of the
executable matchers (under Python `re.match` semantics, where the `$`
anchor also accepts one trailing newline). -/

/-- The language of `^0x[0-9a-fA-F]{40}$` proper. -/
def EvmPat (l : List Char) : Prop :=
  ∃ hs, l = '0' :: 'x' :: hs ∧ hs.length = 40 ∧ ∀ c ∈ hs, isHexChar c = true

/-- The language of `^[a-z]+1[a-z0-9]{38,}$` proper. -/
def BechPat (l : List Char) : Prop :=
  ∃ p q, l = p ++ '1' :: q ∧ p ≠ [] ∧ (∀ c ∈ p, isLowerAlpha c = true) ∧
    (∀ c ∈ q, isLowerAlnum c = true) ∧ 38 ≤ q.length

/-- Python `re.match` semantics of a `$`-anchored pattern. -/
def PyDollar (pat : List Char → Prop) (s : String) : Prop :=
  pat s.data ∨ ∃ t, s.data = t ++ [Char.ofNat 10] ∧ pat t

/-! ### Batch loop characterization -/

/-- The success projection of one conversion, for phrasing the batch
result as an order-preserving `filterMap` over the input list. -/
def convOk (a : String) : Option WalletConversionResponse :=
  (convert_address a).toOption

/-- The failure projection of one conversion. -/
def convErr (a : String) : Option (String × String) :=
  match convert_address a with
  | Except.error e => some (a, e)
  | Except.ok _ => none

/-! ## Theorems -/

@[simp] theorem natToBits_length (w v : Nat) : (natToBits w v).length = w := by
  induction w generalizing v with
  | zero => rfl
  | succ w ih => simp [natToBits, ih]

theorem bitsToNat_foldl (l : List Bool) (a : Nat) :
    l.foldl (fun a b => 2 * a + (if b then 1 else 0)) a =
      a * 2 ^ l.length + bitsToNat l := by
  induction l generalizing a with
  | nil => simp [bitsToNat]
  | cons b t ih =>
    simp only [List.foldl_cons, bitsToNat, List.length_cons]
    rw [ih, ih (2 * 0 + _)]
    ring

theorem bitsToNat_cons (b : Bool) (l : List Bool) :
    bitsToNat (b :: l) = (if b then 1 else 0) * 2 ^ l.length + bitsToNat l := by
  have h := bitsToNat_foldl l (2 * 0 + (if b then 1 else 0))
  simp only [bitsToNat, List.foldl_cons] at h ⊢
  rw [h]
  ring

theorem bitsToNat_append (l₁ l₂ : List Bool) :
    bitsToNat (l₁ ++ l₂) = bitsToNat l₁ * 2 ^ l₂.length + bitsToNat l₂ := by
  have h := bitsToNat_foldl l₂ (bitsToNat l₁)
  simp only [bitsToNat, List.foldl_append] at h ⊢
  rw [h]

theorem bitsToNat_lt (l : List Bool) : bitsToNat l < 2 ^ l.length := by
  induction l with
  | nil => simp [bitsToNat]
  | cons b t ih =>
    rw [bitsToNat_cons]
    have : (2 : Nat) ^ (b :: t).length = 2 ^ t.length + 2 ^ t.length := by
      simp [List.length_cons, Nat.pow_succ]; ring
    rw [this]
    cases b <;> simp <;> omega

theorem natToBits_congr {x y : Nat} (w : Nat)
    (h : ∀ i, i < w → x.testBit i = y.testBit i) :
    natToBits w x = natToBits w y := by
  induction w with
  | zero => rfl
  | succ w ih =>
    simp only [natToBits]
    rw [h w (by omega), ih (fun i hi => h i (by omega))]

theorem natToBits_mod {w m : Nat} (x : Nat) (h : w ≤ m) :
    natToBits w (x % 2 ^ m) = natToBits w x := by
  apply natToBits_congr
  intro i hi
  simp [Nat.testBit_mod_two_pow, show i < m by omega]

theorem natToBits_add (a b v : Nat) :
    natToBits (a + b) v = natToBits a (v >>> b) ++ natToBits b v := by
  induction a with
  | zero => simp [natToBits]
  | succ a ih =>
    have : a + 1 + b = (a + b) + 1 := by omega
    rw [this]
    simp only [natToBits, Nat.testBit_shiftRight]
    rw [ih, Nat.add_comm b a]
    rfl

theorem bitsToNat_natToBits (w v : Nat) :
    bitsToNat (natToBits w v) = v % 2 ^ w := by
  induction w generalizing v with
  | zero => simp [natToBits, bitsToNat, Nat.mod_one]
  | succ w ih =>
    simp only [natToBits]
    rw [bitsToNat_cons, natToBits_length, ih]
    have hsplit : v % 2 ^ (w + 1) = (v / 2 ^ w % 2) * 2 ^ w + v % 2 ^ w := by
      rw [Nat.pow_succ, Nat.mod_mul]
      ring
    rw [hsplit, Nat.testBit_to_div_mod]
    rcases Nat.mod_two_eq_zero_or_one (v / 2 ^ w) with h | h <;> simp [h]

theorem natToBits_bitsToNat (l : List Bool) :
    natToBits l.length (bitsToNat l) = l := by
  induction l with
  | nil => rfl
  | cons b t ih =>
    simp only [List.length_cons, natToBits, bitsToNat_cons]
    rw [List.cons_eq_cons]
    refine ⟨?_, ?_⟩
    · have ht := bitsToNat_lt t
      rcases b with _ | _
      · simp only [Bool.false_eq_true, if_false, Nat.zero_mul, Nat.zero_add]
        exact Nat.testBit_lt_two_pow ht
      · have h1 : (if true then 1 else 0) * 2 ^ t.length + bitsToNat t =
            2 ^ t.length * 1 + bitsToNat t := by simp [Nat.mul_comm]
        rw [h1, Nat.testBit_mul_two_pow_add_eq]
        simp [Nat.testBit_lt_two_pow ht]
    · have hmod : ((if b then 1 else 0) * 2 ^ t.length + bitsToNat t) % 2 ^ t.length =
          bitsToNat t := by
        rw [Nat.mul_comm, Nat.mul_add_mod, Nat.mod_eq_of_lt (bitsToNat_lt t)]
      calc natToBits t.length ((if b then 1 else 0) * 2 ^ t.length + bitsToNat t)
          = natToBits t.length (((if b then 1 else 0) * 2 ^ t.length + bitsToNat t) %
              2 ^ t.length) := (natToBits_mod _ (Nat.le_refl _)).symm
        _ = natToBits t.length (bitsToNat t) := by rw [hmod]
        _ = t := ih

theorem natToBits_bitsToNat_of_length {w : Nat} {l : List Bool} (h : l.length = w) :
    natToBits w (bitsToNat l) = l := by
  subst h
  exact natToBits_bitsToNat l

theorem groupNF_fuel (k : Nat) :
    ∀ (f : Nat) (l : List Bool), l.length ≤ f → groupNF k f l = groupN k l := by
  intro f
  induction f using Nat.strong_induction_on with
  | _ f ih =>
    intro l hl
    match f, l with
    | 0, [] => rfl
    | f+1, [] => rfl
    | 0, b :: t => simp at hl
    | f+1, b :: t =>
      have ht : t.length ≤ f := by simpa using hl
      show (if k = 0 then [] else bitsToNat ((b :: t).take k) ::
          groupNF k f (t.drop (k-1)))
        = (if k = 0 then [] else bitsToNat ((b :: t).take k) ::
          groupNF k t.length (t.drop (k-1)))
      by_cases hk : k = 0
      · rw [if_pos hk, if_pos hk]
      · rw [if_neg hk, if_neg hk,
            ih f (by omega) (t.drop (k-1)) (by simp only [List.length_drop]; omega),
            ih t.length (by omega) (t.drop (k-1))
              (by simp only [List.length_drop]; omega)]

@[simp] theorem groupN_nil (k : Nat) : groupN k [] = [] := rfl

theorem groupN_unfold (k : Nat) (b : Bool) (l : List Bool) :
    groupN k (b :: l) =
      if k = 0 then [] else bitsToNat ((b :: l).take k) :: groupN k (l.drop (k-1)) := by
  show (if k = 0 then [] else bitsToNat ((b :: l).take k) ::
      groupNF k l.length (l.drop (k-1))) = _
  by_cases hk : k = 0
  · rw [if_pos hk, if_pos hk]
  · rw [if_neg hk, if_neg hk,
        groupNF_fuel k l.length (l.drop (k-1)) (by simp only [List.length_drop]; omega)]

theorem groupN_cons_of_length (k : Nat) (l : List Bool) (hk : 0 < k)
    (hl : l ≠ []) :
    groupN k l = bitsToNat (l.take k) :: groupN k (l.drop k) := by
  match l with
  | [] => exact absurd rfl hl
  | b :: t =>
    rw [groupN_unfold, if_neg (by omega)]
    congr 1
    match k, hk with
    | k+1, _ => simp [List.drop_succ_cons]

theorem groupN_exact (k : Nat) (l : List Bool) (hk : 0 < k)
    (hl : l.length = k) :
    groupN k l = [bitsToNat l] := by
  have hne : l ≠ [] := by intro h; rw [h] at hl; simp at hl; omega
  rw [groupN_cons_of_length k l hk hne]
  rw [← hl, List.take_length, List.drop_length, groupN_nil]

theorem groupN_append (k : Nat) (hk : 0 < k) :
    ∀ (n : Nat) (A B : List Bool), A.length = n → k ∣ n →
      groupN k (A ++ B) = groupN k A ++ groupN k B := by
  intro n
  induction n using Nat.strong_induction_on with
  | _ n ih =>
    intro A B hlen hdvd
    match A with
    | [] => simp
    | a :: A' =>
      have hge : k ≤ n := by
        rcases hdvd with ⟨c, rfl⟩
        rcases c with _ | c
        · simp at hlen
        · calc k = k * 1 := by ring
            _ ≤ k * (c + 1) := Nat.mul_le_mul_left _ (by omega)
      have hAlen : (a :: A').length = n := hlen
      have hAne : (a :: A') ≠ [] := by simp
      rw [groupN_cons_of_length k ((a :: A') ++ B) hk (by simp),
          groupN_cons_of_length k (a :: A') hk hAne]
      have htake : ((a :: A') ++ B).take k = (a :: A').take k := by
        rw [List.take_append_eq_append_take,
            show k - (a :: A').length = 0 by omega]
        simp
      have hdrop : ((a :: A') ++ B).drop k = (a :: A').drop k ++ B := by
        rw [List.drop_append_eq_append_drop,
            show k - (a :: A').length = 0 by omega]
        simp
      rw [htake, hdrop]
      have hrec := ih (n - k) (by omega) ((a :: A').drop k) B
        (by simp [hAlen]) (by exact (Nat.dvd_sub' hdvd (Nat.dvd_refl k)))
      rw [hrec]
      simp

theorem groupN_flatMap_natToBits (k : Nat) (hk : 0 < k) (vs : List Nat) :
    groupN k (vs.flatMap (natToBits k)) = vs.map (fun v => v % 2 ^ k) := by
  induction vs with
  | nil => simp
  | cons v vs ih =>
    rw [List.flatMap_cons,
        groupN_append k hk (natToBits k v).length _ _ rfl (by simp),
        groupN_exact k _ hk (by simp), bitsToNat_natToBits]
    simp [ih]

theorem flatMap_natToBits_groupN (k : Nat) (hk : 0 < k) :
    ∀ (n : Nat) (l : List Bool), l.length = n → k ∣ n →
      (groupN k l).flatMap (natToBits k) = l := by
  intro n
  induction n using Nat.strong_induction_on with
  | _ n ih =>
    intro l hlen hdvd
    match l with
    | [] => simp
    | b :: l' =>
      have hge : k ≤ n := by
        rcases hdvd with ⟨c, rfl⟩
        rcases c with _ | c
        · simp at hlen
        · calc k = k * 1 := by ring
            _ ≤ k * (c + 1) := Nat.mul_le_mul_left _ (by omega)
      rw [groupN_cons_of_length k (b :: l') hk (by simp), List.flatMap_cons]
      have hlen' : ((b :: l').take k).length = k := by
        simp [hlen]; omega
      have hrec := ih (n - k) (by omega) ((b :: l').drop k)
        (by simp [hlen]) (Nat.dvd_sub' hdvd (Nat.dvd_refl k))
      rw [natToBits_bitsToNat_of_length hlen', hrec, List.take_append_drop]

theorem groupN_length (k : Nat) (hk : 0 < k) :
    ∀ (n : Nat) (l : List Bool), l.length = n → k ∣ n →
      (groupN k l).length = n / k := by
  intro n
  induction n using Nat.strong_induction_on with
  | _ n ih =>
    intro l hlen hdvd
    match l with
    | [] =>
      simp at hlen
      simp [← hlen]
    | b :: l' =>
      have hge : k ≤ n := by
        rcases hdvd with ⟨c, rfl⟩
        rcases c with _ | c
        · simp at hlen
        · calc k = k * 1 := by ring
            _ ≤ k * (c + 1) := Nat.mul_le_mul_left _ (by omega)
      rw [groupN_cons_of_length k (b :: l') hk (by simp)]
      have hrec := ih (n - k) (by omega) ((b :: l').drop k)
        (by simp [hlen]) (Nat.dvd_sub' hdvd (Nat.dvd_refl k))
      simp only [List.length_cons, hrec]
      rcases hdvd with ⟨c, rfl⟩
      rcases c with _ | c
      · omega
      · rw [show k * (c + 1) - k = k * c by ring_nf; omega,
            Nat.mul_div_cancel_left _ hk, Nat.mul_div_cancel_left _ hk]

theorem groupN_all_lt_aux (k : Nat) :
    ∀ (n : Nat) (l : List Bool), l.length = n → ∀ x ∈ groupN k l, x < 2 ^ k := by
  intro n
  induction n using Nat.strong_induction_on with
  | _ n ih =>
    intro l hlen x hx
    match l with
    | [] => simp at hx
    | b :: l' =>
      have hl2 : l'.length + 1 = n := by simpa using hlen
      rw [groupN_unfold] at hx
      by_cases hk : k = 0
      · simp [hk] at hx
      · rw [if_neg hk] at hx
        rcases List.mem_cons.mp hx with h | h
        · subst h
          calc bitsToNat ((b :: l').take k) < 2 ^ ((b :: l').take k).length :=
              bitsToNat_lt _
            _ ≤ 2 ^ k := Nat.pow_le_pow_right (by omega) (by simp)
        · exact ih (l'.drop (k-1)).length (by simp; omega) _ rfl x h

theorem groupN_all_lt (k : Nat) (l : List Bool) :
    ∀ x ∈ groupN k l, x < 2 ^ k :=
  groupN_all_lt_aux k l.length l rfl

theorem flatMap_natToBits_length (w : Nat) (data : List Nat) :
    (data.flatMap (natToBits w)).length = w * data.length := by
  induction data with
  | nil => simp
  | cons v rest ih => simp [ih]; ring

theorem emitLoopF_fuel (tobits maxv acc : Nat) :
    ∀ (f bits : Nat) (ret : List Nat), bits ≤ f →
      emitLoopF tobits maxv acc f bits ret = emitLoop tobits maxv acc bits ret := by
  intro f
  induction f using Nat.strong_induction_on with
  | _ f ih =>
    intro bits ret hb
    match f with
    | 0 =>
      obtain rfl : bits = 0 := by omega
      rfl
    | f+1 =>
      show (if 0 < tobits ∧ tobits ≤ bits then
          emitLoopF tobits maxv acc f (bits - tobits)
            (ret ++ [(acc >>> (bits - tobits)) &&& maxv])
        else (bits, ret)) = emitLoop tobits maxv acc bits ret
      by_cases hc : 0 < tobits ∧ tobits ≤ bits
      · rw [if_pos hc]
        obtain ⟨b1, rfl⟩ : ∃ b1, bits = b1 + 1 := ⟨bits - 1, by omega⟩
        rw [show emitLoop tobits maxv acc (b1+1) ret =
            (if 0 < tobits ∧ tobits ≤ b1+1 then
              emitLoopF tobits maxv acc b1 (b1+1 - tobits)
                (ret ++ [(acc >>> (b1+1 - tobits)) &&& maxv])
            else (b1+1, ret)) from rfl,
          if_pos hc]
        rw [ih f (by omega) (b1+1 - tobits) _ (by omega),
            ih b1 (by omega) (b1+1 - tobits) _ (by omega)]
      · rw [if_neg hc]
        match bits with
        | 0 => rfl
        | b+1 =>
          show _ = (if 0 < tobits ∧ tobits ≤ b+1 then
              emitLoopF tobits maxv acc b (b+1 - tobits)
                (ret ++ [(acc >>> (b+1 - tobits)) &&& maxv])
            else (b+1, ret))
          rw [if_neg hc]

theorem emitLoop_eq (tobits maxv acc bits : Nat) (ret : List Nat) :
    emitLoop tobits maxv acc bits ret =
      if 0 < tobits ∧ tobits ≤ bits then
        emitLoop tobits maxv acc (bits - tobits)
          (ret ++ [(acc >>> (bits - tobits)) &&& maxv])
      else (bits, ret) := by
  by_cases hc : 0 < tobits ∧ tobits ≤ bits
  · obtain ⟨b1, rfl⟩ : ∃ b1, bits = b1 + 1 := ⟨bits - 1, by omega⟩
    show (if 0 < tobits ∧ tobits ≤ b1+1 then
        emitLoopF tobits maxv acc b1 (b1+1 - tobits)
          (ret ++ [(acc >>> (b1+1 - tobits)) &&& maxv])
      else (b1+1, ret)) = _
    rw [if_pos hc, if_pos hc,
        emitLoopF_fuel tobits maxv acc b1 (b1+1 - tobits) _ (by omega)]
  · match bits with
    | 0 =>
      rw [if_neg hc]
      rfl
    | b+1 =>
      show (if 0 < tobits ∧ tobits ≤ b+1 then
          emitLoopF tobits maxv acc b (b+1 - tobits)
            (ret ++ [(acc >>> (b+1 - tobits)) &&& maxv])
        else (b+1, ret)) = _
      rw [if_neg hc, if_neg hc]

theorem emitLoop_spec (tobits acc : Nat) (ht : 0 < tobits) :
    ∀ (bits : Nat) (ret : List Nat),
      emitLoop tobits (2 ^ tobits - 1) acc bits ret =
        (bits % tobits,
         ret ++ groupN tobits
           (natToBits (bits - bits % tobits) (acc >>> (bits % tobits)))) := by
  intro bits
  induction bits using Nat.strong_induction_on with
  | _ bits ih =>
    intro ret
    by_cases hlt : bits < tobits
    · rw [emitLoop_eq, if_neg (by omega)]
      rw [Nat.mod_eq_of_lt hlt, Nat.sub_self]
      simp [natToBits]
    · have hmod : (bits - tobits) % tobits = bits % tobits := by
        conv_rhs => rw [show bits = (bits - tobits) + tobits by omega]
        rw [Nat.add_mod_right]
      rw [emitLoop_eq, if_pos ⟨ht, by omega⟩]
      rw [ih (bits - tobits) (by omega), hmod]
      have hrlt : bits % tobits < tobits := Nat.mod_lt _ ht
      have hrle : bits % tobits ≤ bits - tobits := by
        rw [← hmod]; exact Nat.mod_le _ _
      congr 1
      rw [List.append_assoc, List.singleton_append]
      congr 1
      rw [show natToBits (bits - bits % tobits) (acc >>> (bits % tobits)) =
            natToBits tobits (acc >>> (bits - tobits)) ++
              natToBits (bits - tobits - bits % tobits) (acc >>> (bits % tobits)) by
          rw [show bits - bits % tobits = tobits + (bits - tobits - bits % tobits) by
              omega,
            natToBits_add, ← Nat.shiftRight_add,
            show bits % tobits + (bits - tobits - bits % tobits) = bits - tobits by
              omega]]
      rw [groupN_append tobits ht tobits _ _ (by simp) (Nat.dvd_refl _),
          groupN_exact tobits (natToBits tobits (acc >>> (bits - tobits))) ht (by simp),
          bitsToNat_natToBits, ← Nat.and_pow_two_sub_one_eq_mod]
      rfl

theorem natToBits_window (frombits tobits acc bits v : Nat)
    (hb : bits < tobits) (hv : v < 2 ^ frombits) :
    natToBits (bits + frombits)
        (((acc <<< frombits) ||| v) &&& (2 ^ (frombits + tobits - 1) - 1)) =
      natToBits bits acc ++ natToBits frombits v := by
  rw [Nat.and_pow_two_sub_one_eq_mod, natToBits_mod _ (by omega), natToBits_add]
  congr 1
  · apply natToBits_congr
    intro i hi
    simp only [Nat.testBit_shiftRight, Nat.testBit_or, Nat.testBit_shiftLeft]
    have h1 : Nat.testBit v (frombits + i) = false :=
      Nat.testBit_lt_two_pow (lt_of_lt_of_le hv (Nat.pow_le_pow_right (by omega) (by omega)))
    simp [h1, show frombits + i - frombits = i by omega]
  · apply natToBits_congr
    intro i hi
    simp only [Nat.testBit_or, Nat.testBit_shiftLeft]
    simp [show ¬ (i ≥ frombits) by omega]

theorem convertbitsAux_spec (frombits tobits : Nat)
    (hf : 0 < frombits) (ht : 0 < tobits) :
    ∀ (data : List Nat) (acc bits : Nat) (ret : List Nat),
      bits < tobits →
      (∀ v ∈ data, v < 2 ^ frombits) →
      ∃ accf,
        convertbitsAux frombits tobits (2 ^ tobits - 1) (2 ^ (frombits + tobits - 1) - 1)
            data acc bits ret =
          some (ret ++ groupN tobits
                  ((natToBits bits acc ++ data.flatMap (natToBits frombits)).take
                    ((bits + frombits * data.length) -
                      (bits + frombits * data.length) % tobits)),
                accf,
                (bits + frombits * data.length) % tobits) := by
  intro data
  induction data with
  | nil =>
    intro acc bits ret hb _hall
    refine ⟨acc, ?_⟩
    rw [convertbitsAux]
    simp [Nat.mod_eq_of_lt hb]
  | cons v rest ih =>
    intro acc bits ret hb hall
    have hv : v < 2 ^ frombits := hall v (by simp)
    rw [convertbitsAux, if_neg (by omega)]
    set acc' := ((acc <<< frombits) ||| v) &&& (2 ^ (frombits + tobits - 1) - 1) with hacc'
    rw [emitLoop_spec tobits acc' ht (bits + frombits) ret]
    dsimp only
    set n1 := bits + frombits with hn1
    set r1 := n1 % tobits with hr1
    have hr1lt : r1 < tobits := Nat.mod_lt _ ht
    obtain ⟨accf, hrec⟩ := ih acc' r1
      (ret ++ groupN tobits (natToBits (n1 - r1) (acc' >>> r1)))
      hr1lt (fun w hw => hall w (by simp [hw]))
    refine ⟨accf, ?_⟩
    rw [hrec]
    have hr1le : r1 ≤ n1 := by rw [hr1]; exact Nat.mod_le _ _
    have hq1 : tobits ∣ (n1 - r1) := by
      have hdm := Nat.div_add_mod n1 tobits
      exact ⟨n1 / tobits, by omega⟩
    rcases hq1 with ⟨c, hc⟩
    have hwindow : natToBits bits acc ++ (v :: rest).flatMap (natToBits frombits) =
        natToBits (n1 - r1) (acc' >>> r1) ++
          (natToBits r1 acc' ++ rest.flatMap (natToBits frombits)) := by
      rw [List.flatMap_cons, ← List.append_assoc,
          ← natToBits_window frombits tobits acc bits v hb hv, ← hacc']
      rw [show natToBits n1 acc' =
            natToBits (n1 - r1) (acc' >>> r1) ++ natToBits r1 acc' by
          rw [← natToBits_add]
          congr 1
          omega]
      simp [List.append_assoc]
    have hLen : bits + frombits * (v :: rest).length =
        (n1 - r1) + (r1 + frombits * rest.length) := by
      simp only [List.length_cons]
      have : frombits * (rest.length + 1) = frombits * rest.length + frombits := by ring
      omega
    have hmodeq : (bits + frombits * (v :: rest).length) % tobits =
        (r1 + frombits * rest.length) % tobits := by
      rw [hLen, hc, Nat.mul_add_mod]
    have hXlen : (natToBits (n1 - r1) (acc' >>> r1)).length = n1 - r1 :=
      natToBits_length _ _
    have hmodleL : (r1 + frombits * rest.length) % tobits ≤
        r1 + frombits * rest.length := Nat.mod_le _ _
    have htake : ((natToBits bits acc ++ (v :: rest).flatMap (natToBits frombits)).take
        ((bits + frombits * (v :: rest).length) -
          (bits + frombits * (v :: rest).length) % tobits)) =
        natToBits (n1 - r1) (acc' >>> r1) ++
          ((natToBits r1 acc' ++ rest.flatMap (natToBits frombits)).take
            ((r1 + frombits * rest.length) -
              (r1 + frombits * rest.length) % tobits)) := by
      rw [hwindow, List.take_append_eq_append_take, hXlen]
      rw [List.take_of_length_le (by rw [hXlen, hmodeq, hLen]; omega)]
      congr 2
      rw [hmodeq, hLen]
      omega
    rw [htake, groupN_append tobits ht (n1 - r1) _ _ hXlen ⟨c, hc⟩, hmodeq]
    simp [List.append_assoc]

theorem convertbits_aux_init (frombits tobits : Nat) (data : List Nat)
    (hf : 0 < frombits) (ht : 0 < tobits)
    (hall : ∀ v ∈ data, v < 2 ^ frombits) :
    ∃ accf,
      convertbitsAux frombits tobits ((1 <<< tobits) - 1)
          ((1 <<< (frombits + tobits - 1)) - 1) data 0 0 [] =
        some (groupN tobits
                ((data.flatMap (natToBits frombits)).take
                  (frombits * data.length - (frombits * data.length) % tobits)),
              accf,
              (frombits * data.length) % tobits) := by
  obtain ⟨accf, h⟩ := convertbitsAux_spec frombits tobits hf ht data 0 0 [] ht hall
  refine ⟨accf, ?_⟩
  rw [Nat.one_shiftLeft, Nat.one_shiftLeft]
  simpa [natToBits] using h

/-- `convertbits` succeeds and is pure bit-regrouping whenever the total
number of input bits is an exact multiple of the output width — the only
shapes the wallet service produces (20 bytes ↔ 32 five-bit groups). -/
theorem convertbits_exact (frombits tobits : Nat) (data : List Nat) (pad : Bool)
    (hf : 0 < frombits) (ht : 0 < tobits)
    (hall : ∀ v ∈ data, v < 2 ^ frombits)
    (hdvd : tobits ∣ frombits * data.length) :
    convertbits data frombits tobits pad =
      some (groupN tobits (data.flatMap (natToBits frombits))) := by
  obtain ⟨accf, h⟩ := convertbits_aux_init frombits tobits data hf ht hall
  have hmod0 : (frombits * data.length) % tobits = 0 :=
    Nat.mod_eq_zero_of_dvd hdvd
  have hz : (accf <<< tobits) &&& ((1 <<< tobits) - 1) = 0 := by
    rw [Nat.one_shiftLeft, Nat.and_pow_two_sub_one_eq_mod, Nat.shiftLeft_eq,
        Nat.mul_mod_left]
  rw [convertbits]
  simp only [h, hmod0, Nat.sub_zero]
  rw [List.take_of_length_le (le_of_eq (flatMap_natToBits_length frombits data))]
  cases pad
  · rw [if_neg (by simp), if_neg (by omega)]
  · simp

/-- Inversion for a successful `pad = false` call: the leftover bit count is
shorter than one input symbol and the output is the exact regrouping of the
consumed prefix of the bit stream. -/
theorem convertbits_nopad_inversion (frombits tobits : Nat) (data ret : List Nat)
    (hf : 0 < frombits) (ht : 0 < tobits)
    (hall : ∀ v ∈ data, v < 2 ^ frombits)
    (h : convertbits data frombits tobits false = some ret) :
    (frombits * data.length) % tobits < frombits ∧
      ret = groupN tobits
        ((data.flatMap (natToBits frombits)).take
          (frombits * data.length - (frombits * data.length) % tobits)) := by
  obtain ⟨accf, hinit⟩ := convertbits_aux_init frombits tobits data hf ht hall
  rw [convertbits] at h
  simp only [hinit] at h
  by_cases hcond : frombits ≤ (frombits * data.length) % tobits ∨
      ((accf <<< (tobits - (frombits * data.length) % tobits)) &&&
        ((1 <<< tobits) - 1)) ≠ 0
  · rw [if_pos hcond] at h
    exact absurd h (by simp)
  · rw [if_neg hcond] at h
    push_neg at hcond
    exact ⟨by omega, (Option.some.inj h).symm⟩

/-! ### Checksum algebra

`polymodStep` is linear over XOR, which reduces checksum verification of
`values ++ checksum` to reassembling the 6 five-bit checksum slices. -/

theorem shiftRight_xor_distrib (a b n : Nat) :
    (a ^^^ b) >>> n = (a >>> n) ^^^ (b >>> n) := by
  apply Nat.eq_of_testBit_eq
  intro i
  simp [Nat.testBit_shiftRight, Nat.testBit_xor]

theorem shiftLeft_xor_distrib (a b n : Nat) :
    (a ^^^ b) <<< n = (a <<< n) ^^^ (b <<< n) := by
  apply Nat.eq_of_testBit_eq
  intro i
  simp only [Nat.testBit_shiftLeft, Nat.testBit_xor]
  cases Nat.decLe n i with
  | isTrue h => simp [h]
  | isFalse h => simp [h]

theorem shl_xor_eq_add (a b n : Nat) (hb : b < 2 ^ n) :
    (a <<< n) ^^^ b = a <<< n + b := by
  apply Nat.eq_of_testBit_eq
  intro j
  have hrhs : a <<< n + b = 2 ^ n * a + b := by
    rw [Nat.shiftLeft_eq, Nat.mul_comm]
  rw [hrhs, Nat.testBit_mul_pow_two_add a hb j]
  simp only [Nat.testBit_xor, Nat.testBit_shiftLeft]
  by_cases hj : j < n
  · simp [hj, Nat.not_le_of_lt hj]
  · have hge : n ≤ j := Nat.le_of_not_lt hj
    have hbz : b.testBit j = false :=
      Nat.testBit_lt_two_pow (lt_of_lt_of_le hb (Nat.pow_le_pow_right (by omega) hge))
    simp [hj, hge, hbz]

theorem ite_xor (t : Prop) [Decidable t] (c g : Nat) :
    (if t then c ^^^ g else c) = c ^^^ (if t then g else 0) := by
  split_ifs <;> simp

theorem ite_xor_bit (ta tb g : Nat) (hta : ta ≤ 1) (htb : tb ≤ 1) :
    (if ta ^^^ tb = 1 then g else 0) =
      (if ta = 1 then g else 0) ^^^ (if tb = 1 then g else 0) := by
  interval_cases ta <;> interval_cases tb <;> simp

/-- Closed form of `polymodStep` with each generator contribution as a
separate XOR summand. -/
theorem polymodStep_eq (chk v : Nat) :
    polymodStep chk v =
      (((chk &&& 0x1ffffff) <<< 5) ^^^ v) ^^^
        (if ((chk >>> 25) >>> 0) &&& 1 = 1 then 0x3b6a57b2 else 0) ^^^
        (if ((chk >>> 25) >>> 1) &&& 1 = 1 then 0x26508e6d else 0) ^^^
        (if ((chk >>> 25) >>> 2) &&& 1 = 1 then 0x1ea119fa else 0) ^^^
        (if ((chk >>> 25) >>> 3) &&& 1 = 1 then 0x3d4233dd else 0) ^^^
        (if ((chk >>> 25) >>> 4) &&& 1 = 1 then 0x2a1462b3 else 0) := by
  show (if ((chk >>> 25) >>> 4) &&& 1 = 1 then _ ^^^ 0x2a1462b3 else _) = _
  rw [ite_xor, ite_xor, ite_xor, ite_xor, ite_xor]

theorem polymodStep_zero_left (v : Nat) : polymodStep 0 v = v := by
  rw [polymodStep_eq]
  norm_num

theorem xor_left_comm (a b c : Nat) : a ^^^ (b ^^^ c) = b ^^^ (a ^^^ c) := by
  rw [← Nat.xor_assoc, Nat.xor_comm a b, Nat.xor_assoc]

/-- XOR-linearity of a single polymod step. -/
theorem polymodStep_add (a b x y : Nat) :
    polymodStep (a ^^^ b) (x ^^^ y) = polymodStep a x ^^^ polymodStep b y := by
  rw [polymodStep_eq, polymodStep_eq, polymodStep_eq]
  rw [Nat.and_xor_distrib_right, shiftLeft_xor_distrib]
  have htop : ∀ i : Nat, (((a ^^^ b) >>> 25) >>> i) &&& 1 =
      (((a >>> 25) >>> i) &&& 1) ^^^ (((b >>> 25) >>> i) &&& 1) := by
    intro i
    rw [shiftRight_xor_distrib, shiftRight_xor_distrib, Nat.and_xor_distrib_right]
  have hb1 : ∀ z i : Nat, ((z >>> 25) >>> i) &&& 1 ≤ 1 := fun z i => Nat.and_le_right
  rw [htop 0, htop 1, htop 2, htop 3, htop 4]
  rw [ite_xor_bit _ _ _ (hb1 a 0) (hb1 b 0), ite_xor_bit _ _ _ (hb1 a 1) (hb1 b 1),
      ite_xor_bit _ _ _ (hb1 a 2) (hb1 b 2), ite_xor_bit _ _ _ (hb1 a 3) (hb1 b 3),
      ite_xor_bit _ _ _ (hb1 a 4) (hb1 b 4)]
  simp only [Nat.xor_assoc]
  generalize ((a &&& 0x1ffffff) <<< 5) = A
  generalize ((b &&& 0x1ffffff) <<< 5) = B
  generalize (if ((a >>> 25) >>> 0) &&& 1 = 1 then (0x3b6a57b2 : Nat) else 0) = A0
  generalize (if ((b >>> 25) >>> 0) &&& 1 = 1 then (0x3b6a57b2 : Nat) else 0) = B0
  generalize (if ((a >>> 25) >>> 1) &&& 1 = 1 then (0x26508e6d : Nat) else 0) = A1
  generalize (if ((b >>> 25) >>> 1) &&& 1 = 1 then (0x26508e6d : Nat) else 0) = B1
  generalize (if ((a >>> 25) >>> 2) &&& 1 = 1 then (0x1ea119fa : Nat) else 0) = A2
  generalize (if ((b >>> 25) >>> 2) &&& 1 = 1 then (0x1ea119fa : Nat) else 0) = B2
  generalize (if ((a >>> 25) >>> 3) &&& 1 = 1 then (0x3d4233dd : Nat) else 0) = A3
  generalize (if ((b >>> 25) >>> 3) &&& 1 = 1 then (0x3d4233dd : Nat) else 0) = B3
  generalize (if ((a >>> 25) >>> 4) &&& 1 = 1 then (0x2a1462b3 : Nat) else 0) = A4
  generalize (if ((b >>> 25) >>> 4) &&& 1 = 1 then (0x2a1462b3 : Nat) else 0) = B4
  simp only [← Nat.xor_assoc]
  simp [Nat.xor_assoc, Nat.xor_comm, xor_left_comm]

/-- Splitting a polymod fold over an XOR of initial states: the left part
runs on a zero tail of the same length. -/
theorem polymod_foldl_split (cs : List Nat) :
    ∀ u v : Nat,
      cs.foldl polymodStep (u ^^^ v) =
        (List.replicate cs.length 0).foldl polymodStep u ^^^ cs.foldl polymodStep v := by
  induction cs with
  | nil => intro u v; rfl
  | cons c cs ih =>
    intro u v
    have hstep : polymodStep (u ^^^ v) c = polymodStep u 0 ^^^ polymodStep v c := by
      have : (c : Nat) = 0 ^^^ c := by simp
      rw [this, polymodStep_add]
      simp
    simp only [List.foldl_cons, List.length_cons, List.replicate_succ]
    rw [hstep, ih]

theorem polymodStep_small (chk v : Nat) (h : chk < 2 ^ 25) :
    polymodStep chk v = (chk <<< 5) ^^^ v := by
  rw [polymodStep_eq]
  have htop : chk >>> 25 = 0 := by
    rw [Nat.shiftRight_eq_div_pow]
    exact Nat.div_eq_of_lt h
  have hand : chk &&& 0x1ffffff = chk := by
    have h31 : (0x1ffffff : Nat) = 2 ^ 25 - 1 := by norm_num
    rw [h31, Nat.and_pow_two_sub_one_eq_mod, Nat.mod_eq_of_lt h]
  rw [htop, hand]
  simp

theorem polymodStep_lt (chk v : Nat) (hv : v < 2 ^ 30) :
    polymodStep chk v < 2 ^ 30 := by
  rw [polymodStep_eq]
  have h1 : ((chk &&& 0x1ffffff) <<< 5) < 2 ^ 30 := by
    have hle : chk &&& 0x1ffffff ≤ 0x1ffffff := Nat.and_le_right
    rw [Nat.shiftLeft_eq]
    calc (chk &&& 0x1ffffff) * 2 ^ 5 ≤ 0x1ffffff * 2 ^ 5 :=
        Nat.mul_le_mul_right _ hle
      _ < 2 ^ 30 := by norm_num
  refine Nat.xor_lt_two_pow (Nat.xor_lt_two_pow (Nat.xor_lt_two_pow (Nat.xor_lt_two_pow
    (Nat.xor_lt_two_pow (Nat.xor_lt_two_pow h1 hv) ?_) ?_) ?_) ?_) ?_ <;>
    split_ifs <;> norm_num

theorem polymod_foldl_lt (values : List Nat) :
    ∀ a : Nat, a < 2 ^ 30 → (∀ v ∈ values, v < 2 ^ 30) →
      values.foldl polymodStep a < 2 ^ 30 := by
  induction values with
  | nil => intro a ha _; exact ha
  | cons v rest ih =>
    intro a _ha hall
    exact ih _ (polymodStep_lt a v (hall v (by simp)))
      (fun w hw => hall w (by simp [hw]))

theorem polymod_append (A B : List Nat) :
    bech32_polymod (A ++ B) = B.foldl polymodStep (bech32_polymod A) := by
  simp [bech32_polymod, List.foldl_append]

theorem slice_eq (pm k : Nat) : (pm >>> k) &&& 31 = pm / 2 ^ k % 32 := by
  rw [Nat.shiftRight_eq_div_pow, show (31 : Nat) = 2 ^ 5 - 1 by norm_num,
      Nat.and_pow_two_sub_one_eq_mod]

theorem foldl_six_arith (c0 c1 c2 c3 c4 c5 : Nat)
    (h0 : c0 < 32) (h1 : c1 < 32) (h2 : c2 < 32) (h3 : c3 < 32)
    (h4 : c4 < 32) (h5 : c5 < 32) :
    [c0, c1, c2, c3, c4, c5].foldl polymodStep 0 =
      ((((c0 * 32 + c1) * 32 + c2) * 32 + c3) * 32 + c4) * 32 + c5 := by
  have e1 : polymodStep 0 c0 = c0 := polymodStep_zero_left c0
  have estep : ∀ s v : Nat, s < 2 ^ 25 → v < 32 → polymodStep s v = s * 32 + v := by
    intro s v hs hv
    rw [polymodStep_small s v hs, shl_xor_eq_add s v 5 (by omega), Nat.shiftLeft_eq]
  simp only [List.foldl_cons, List.foldl_nil]
  rw [e1, estep _ _ (by omega) h1, estep _ _ (by omega) h2, estep _ _ (by omega) h3,
      estep _ _ (by omega) h4, estep _ _ (by omega) h5]

theorem expand_all_lt (hrp : List Char) (hhrp : ∀ c ∈ hrp, c.toNat ≤ 126) :
    ∀ v ∈ bech32_hrp_expand hrp, v < 32 := by
  intro v hv
  rw [bech32_hrp_expand] at hv
  rcases List.mem_append.mp hv with h | h
  · rcases List.mem_append.mp h with h | h
    · obtain ⟨c, hc, rfl⟩ := List.mem_map.mp h
      have := hhrp c hc
      rw [Nat.shiftRight_eq_div_pow]
      omega
    · simp at h
      omega
  · obtain ⟨c, hc, rfl⟩ := List.mem_map.mp h
    have : c.toNat &&& 31 ≤ 31 := Nat.and_le_right
    omega

theorem checksum_all_lt (hrp : List Char) (data : List Nat) :
    ∀ v ∈ bech32_create_checksum hrp data, v < 32 := by
  intro v hv
  rw [bech32_create_checksum] at hv
  have hand : ∀ x : Nat, x &&& 31 < 32 := fun x =>
    Nat.lt_succ_of_le (Nat.and_le_right)
  simp only [List.mem_cons, List.not_mem_nil, or_false] at hv
  rcases hv with rfl | rfl | rfl | rfl | rfl | rfl <;> exact hand _

theorem and31_eq_mod (x : Nat) : x &&& 31 = x % 32 := by
  rw [show (31 : Nat) = 2 ^ 5 - 1 by norm_num, Nat.and_pow_two_sub_one_eq_mod]

/-- Reassembling the six 5-bit slices of a 30-bit value recovers it. -/
theorem slices_assemble (pm : Nat) (hpm : pm < 2 ^ 30) :
    ((((((pm >>> 25) &&& 31) * 32 + ((pm >>> 20) &&& 31)) * 32 +
          ((pm >>> 15) &&& 31)) * 32 + ((pm >>> 10) &&& 31)) * 32 +
        ((pm >>> 5) &&& 31)) * 32 + (pm &&& 31) = pm := by
  rw [slice_eq, slice_eq, slice_eq, slice_eq, slice_eq, and31_eq_mod]
  omega

/-- The checksum produced by `bech32_create_checksum` verifies: the polymod
of `hrp-expansion ++ data ++ checksum` is 1. -/
theorem create_checksum_verifies (hrp : List Char) (data : List Nat)
    (hhrp : ∀ c ∈ hrp, c.toNat ≤ 126) (hdata : ∀ v ∈ data, v < 32) :
    bech32_verify_checksum hrp (data ++ bech32_create_checksum hrp data) = true := by
  rw [bech32_verify_checksum]
  have hcomp : bech32_hrp_expand hrp ++ (data ++ bech32_create_checksum hrp data) =
      (bech32_hrp_expand hrp ++ data) ++ bech32_create_checksum hrp data := by
    rw [List.append_assoc]
  rw [hcomp, polymod_append, bech32_create_checksum]
  set s := bech32_polymod (bech32_hrp_expand hrp ++ data) with hsdef
  set pm := bech32_polymod (bech32_hrp_expand hrp ++ data ++ [0, 0, 0, 0, 0, 0]) ^^^ 1
    with hpmdef
  have hs30 : s < 2 ^ 30 := by
    rw [hsdef, bech32_polymod]
    refine polymod_foldl_lt _ 1 (by norm_num) ?_
    intro v hv
    rcases List.mem_append.mp hv with h | h
    · have := expand_all_lt hrp hhrp v h
      omega
    · have := hdata v h
      omega
  have hZfold : bech32_polymod (bech32_hrp_expand hrp ++ data ++ [0, 0, 0, 0, 0, 0]) =
      (List.replicate 6 0).foldl polymodStep s := by
    rw [polymod_append, ← hsdef]
    rfl
  have hZ30 : (List.replicate 6 0).foldl polymodStep s < 2 ^ 30 := by
    refine polymod_foldl_lt _ s hs30 ?_
    intro v hv
    have := List.eq_of_mem_replicate hv
    omega
  have hpm30 : pm < 2 ^ 30 := by
    rw [hpmdef, hZfold]
    exact Nat.xor_lt_two_pow hZ30 (by norm_num)
  have hpmZ : pm = (List.replicate 6 0).foldl polymodStep s ^^^ 1 := by
    rw [hpmdef, hZfold]
  have hfold := polymod_foldl_split
    [(pm >>> 25) &&& 31, (pm >>> 20) &&& 31, (pm >>> 15) &&& 31,
     (pm >>> 10) &&& 31, (pm >>> 5) &&& 31, pm &&& 31] s 0
  rw [Nat.xor_zero] at hfold
  have hlen6 : ([(pm >>> 25) &&& 31, (pm >>> 20) &&& 31, (pm >>> 15) &&& 31,
      (pm >>> 10) &&& 31, (pm >>> 5) &&& 31, pm &&& 31] : List Nat).length = 6 := rfl
  rw [hlen6] at hfold
  have hb : ∀ x : Nat, x &&& 31 < 32 := fun x => Nat.lt_succ_of_le Nat.and_le_right
  rw [hfold, foldl_six_arith _ _ _ _ _ _ (hb _) (hb _) (hb _) (hb _) (hb _) (hb _),
      slices_assemble pm hpm30, hpmZ, Nat.xor_cancel_left]
  rfl

/-- A verifying checksum is unique: any six 5-bit values that make the
polymod over `hrp-expansion ++ data ++ checksum` equal 1 coincide with the
output of `bech32_create_checksum`. -/
theorem checksum_unique (hrp : List Char) (data c : List Nat)
    (hc6 : c.length = 6) (hcall : ∀ v ∈ c, v < 32)
    (h : bech32_verify_checksum hrp (data ++ c) = true) :
    c = bech32_create_checksum hrp data := by
  obtain ⟨c0, c1, c2, c3, c4, c5, rfl⟩ :
      ∃ c0 c1 c2 c3 c4 c5, c = [c0, c1, c2, c3, c4, c5] := by
    match c, hc6 with
    | [c0, c1, c2, c3, c4, c5], _ => exact ⟨c0, c1, c2, c3, c4, c5, rfl⟩
  have hb0 : c0 < 32 := hcall c0 (by simp)
  have hb1 : c1 < 32 := hcall c1 (by simp)
  have hb2 : c2 < 32 := hcall c2 (by simp)
  have hb3 : c3 < 32 := hcall c3 (by simp)
  have hb4 : c4 < 32 := hcall c4 (by simp)
  have hb5 : c5 < 32 := hcall c5 (by simp)
  rw [bech32_verify_checksum] at h
  have h1 : bech32_polymod
      (bech32_hrp_expand hrp ++ (data ++ [c0, c1, c2, c3, c4, c5])) = 1 := by
    simpa using h
  rw [show bech32_hrp_expand hrp ++ (data ++ [c0, c1, c2, c3, c4, c5]) =
        (bech32_hrp_expand hrp ++ data) ++ [c0, c1, c2, c3, c4, c5] by
      rw [List.append_assoc],
    polymod_append] at h1
  have hsplit := polymod_foldl_split [c0, c1, c2, c3, c4, c5]
    (bech32_polymod (bech32_hrp_expand hrp ++ data)) 0
  rw [Nat.xor_zero,
      show ([c0, c1, c2, c3, c4, c5] : List Nat).length = 6 from rfl] at hsplit
  rw [hsplit, foldl_six_arith _ _ _ _ _ _ hb0 hb1 hb2 hb3 hb4 hb5] at h1
  have hZfold : bech32_polymod (bech32_hrp_expand hrp ++ data ++ [0, 0, 0, 0, 0, 0]) =
      (List.replicate 6 0).foldl polymodStep
        (bech32_polymod (bech32_hrp_expand hrp ++ data)) := by
    rw [polymod_append]
    rfl
  have harith : ((((c0 * 32 + c1) * 32 + c2) * 32 + c3) * 32 + c4) * 32 + c5 =
      bech32_polymod (bech32_hrp_expand hrp ++ data ++ [0, 0, 0, 0, 0, 0]) ^^^ 1 := by
    rw [hZfold]
    calc ((((c0 * 32 + c1) * 32 + c2) * 32 + c3) * 32 + c4) * 32 + c5 =
        (List.replicate 6 0).foldl polymodStep
            (bech32_polymod (bech32_hrp_expand hrp ++ data)) ^^^
          ((List.replicate 6 0).foldl polymodStep
              (bech32_polymod (bech32_hrp_expand hrp ++ data)) ^^^
            (((((c0 * 32 + c1) * 32 + c2) * 32 + c3) * 32 + c4) * 32 + c5)) :=
        (Nat.xor_cancel_left _ _).symm
      _ = _ := by rw [h1]
  rw [bech32_create_checksum]
  set pm := bech32_polymod (bech32_hrp_expand hrp ++ data ++ [0, 0, 0, 0, 0, 0]) ^^^ 1
    with hpmdef
  have hc0 : (pm >>> 25) &&& 31 = c0 := by rw [slice_eq]; omega
  have hc1 : (pm >>> 20) &&& 31 = c1 := by rw [slice_eq]; omega
  have hc2 : (pm >>> 15) &&& 31 = c2 := by rw [slice_eq]; omega
  have hc3 : (pm >>> 10) &&& 31 = c3 := by rw [slice_eq]; omega
  have hc4 : (pm >>> 5) &&& 31 = c4 := by rw [slice_eq]; omega
  have hc5 : pm &&& 31 = c5 := by rw [and31_eq_mod]; omega
  rw [hc0, hc1, hc2, hc3, hc4, hc5]

/-! ### Decode-of-encode round trip -/

theorem charset_range : ∀ c ∈ CHARSET, 33 ≤ c.toNat ∧ c.toNat ≤ 126 := by decide

theorem charset_lower_fixed : ∀ c ∈ CHARSET, pyToLower c = c := by decide

theorem charset_no_one : ∀ c ∈ CHARSET, c ≠ '1' := by decide

theorem charsetIdx_getD : ∀ d : Nat, d < 32 → charsetIdx (CHARSET.getD d 'q') = d := by
  decide

theorem charset_getD_mem : ∀ d : Nat, d < 32 → CHARSET.getD d 'q' ∈ CHARSET := by
  decide

theorem charsetIdx_lt (c : Char) (h : c ∈ CHARSET) : charsetIdx c < 32 := by
  fin_cases h <;> decide

theorem lastOneIdx_append_of_some (l r : List Char) (i : Nat)
    (h : lastOneIdx r = some i) : lastOneIdx (l ++ r) = some (l.length + i) := by
  induction l with
  | nil => simpa using h
  | cons c t ih =>
    simp only [List.cons_append, lastOneIdx, List.append_eq, ih, List.length_cons]
    exact congrArg some (by omega)

theorem lastOneIdx_none (l : List Char) (h : ∀ c ∈ l, c ≠ '1') :
    lastOneIdx l = none := by
  induction l with
  | nil => rfl
  | cons c t ih =>
    rw [lastOneIdx, ih (fun x hx => h x (by simp [hx])), if_neg (h c (by simp))]

theorem create_checksum_length (hrp : List Char) (data : List Nat) :
    (bech32_create_checksum hrp data).length = 6 := rfl

/-- Decoding an encoded bech32 string recovers the human-readable part and
the data, for any lowercase printable-ASCII hrp, any 5-bit data, and any
total length within the 90-character bound. -/
theorem bech32_decode_encode (hrp : List Char) (data : List Nat)
    (h1 : hrp ≠ [])
    (h2 : ∀ c ∈ hrp, 33 ≤ c.toNat ∧ c.toNat ≤ 126)
    (h3 : ∀ c ∈ hrp, pyToLower c = c)
    (h4 : ∀ v ∈ data, v < 32)
    (h5 : hrp.length + 7 + data.length ≤ 90) :
    bech32_decode (bech32_encode ⟨hrp⟩ data) = some (⟨hrp⟩, data) := by
  have hchk : ∀ v ∈ bech32_create_checksum hrp data, v < 32 := checksum_all_lt hrp data
  have hdc : ∀ v ∈ data ++ bech32_create_checksum hrp data, v < 32 := by
    intro v hv
    rcases List.mem_append.mp hv with h | h
    · exact h4 v h
    · exact hchk v h
  set mapped := (data ++ bech32_create_checksum hrp data).map
    (fun d => CHARSET.getD d 'q') with hmapdef
  have hmem : ∀ c ∈ mapped, c ∈ CHARSET := by
    intro c hc
    rw [hmapdef] at hc
    obtain ⟨d, hd, rfl⟩ := List.mem_map.mp hc
    exact charset_getD_mem d (hdc d hd)
  have hdata_str : (bech32_encode ⟨hrp⟩ data).data = hrp ++ '1' :: mapped := rfl
  have hmaplen : mapped.length = data.length + 6 := by
    rw [hmapdef]
    simp [create_checksum_length]
  have hlow : (hrp ++ '1' :: mapped).map pyToLower = hrp ++ '1' :: mapped := by
    rw [List.map_append, List.map_cons]
    congr 1
    · exact List.map_congr_left h3 |>.trans (List.map_id hrp)
    · congr 1
      exact List.map_congr_left (fun c hc => charset_lower_fixed c (hmem c hc)) |>.trans
        (List.map_id mapped)
  have hlast : lastOneIdx (hrp ++ '1' :: mapped) = some hrp.length := by
    have hm : lastOneIdx ('1' :: mapped) = some 0 := by
      rw [lastOneIdx, lastOneIdx_none mapped (fun c hc => charset_no_one c (hmem c hc))]
      simp
    simpa using lastOneIdx_append_of_some hrp ('1' :: mapped) 0 hm
  have hdrop : (hrp ++ '1' :: mapped).drop (hrp.length + 1) = mapped := by
    rw [show hrp ++ '1' :: mapped = (hrp ++ ['1']) ++ mapped by simp,
        List.drop_left' (by simp)]
  have htakehrp : (hrp ++ '1' :: mapped).take hrp.length = hrp :=
    List.take_left' rfl
  have hmapback : mapped.map charsetIdx = data ++ bech32_create_checksum hrp data := by
    rw [hmapdef, List.map_map]
    exact List.map_congr_left (fun d hd => charsetIdx_getD d (hdc d hd)) |>.trans
      (List.map_id _)
  have hcond1 : ((hrp ++ '1' :: mapped).any
      (fun c => decide (c.toNat < 33 ∨ 126 < c.toNat))) = false := by
    rw [List.any_eq_false]
    intro c hc
    simp only [decide_eq_true_eq]
    push_neg
    rcases List.mem_append.mp hc with h | h
    · exact ⟨(h2 c h).1, (h2 c h).2⟩
    · rcases List.mem_cons.mp h with rfl | h
      · exact ⟨by decide, by decide⟩
      · exact ⟨(charset_range c (hmem c h)).1, (charset_range c (hmem c h)).2⟩
  have hlentot : (hrp ++ '1' :: mapped).length = hrp.length + 1 + (data.length + 6) := by
    simp [hmaplen]
    omega
  have hh1 : 1 ≤ hrp.length := List.length_pos.mpr h1
  have hallc : mapped.all (fun c => CHARSET.contains c) = true := by
    rw [List.all_eq_true]
    intro c hc
    exact List.elem_eq_true_of_mem (hmem c hc)
  have hverify : bech32_verify_checksum hrp
      (data ++ bech32_create_checksum hrp data) = true :=
    create_checksum_verifies hrp data (fun c hc => (h2 c hc).2) h4
  rw [bech32_decode, hdata_str, hcond1]
  rw [if_neg (by simp)]
  rw [if_neg (show ¬((hrp ++ '1' :: mapped).map pyToLower ≠ hrp ++ '1' :: mapped ∧
      (hrp ++ '1' :: mapped).map pyToUpper ≠ hrp ++ '1' :: mapped) from
    fun hh => hh.1 hlow)]
  rw [hlow, hlast]
  dsimp only
  rw [hlentot, if_neg (by omega)]
  rw [hdrop, hallc, if_pos rfl, htakehrp, hmapback, hverify, if_pos rfl]
  rw [show (data ++ bech32_create_checksum hrp data).length - 6 = data.length by
      simp [create_checksum_length],
    List.take_left' rfl]

/-! ### Case-mapping facts -/

theorem toNat_ofNat_small (n : Nat) (h : n < 55296) : (Char.ofNat n).toNat = n := by
  rw [Char.ofNat, dif_pos (Or.inl (by omega))]
  rfl

theorem pyToLower_toNat (c : Char) :
    (pyToLower c).toNat =
      if 65 ≤ c.toNat ∧ c.toNat ≤ 90 then c.toNat + 32 else c.toNat := by
  rw [pyToLower]
  split_ifs with h
  · exact toNat_ofNat_small _ (by omega)
  · rfl

theorem pyToUpper_toNat (c : Char) :
    (pyToUpper c).toNat =
      if 97 ≤ c.toNat ∧ c.toNat ≤ 122 then c.toNat - 32 else c.toNat := by
  rw [pyToUpper]
  split_ifs with h
  · exact toNat_ofNat_small _ (by omega)
  · rfl

theorem pyToLower_idem (c : Char) : pyToLower (pyToLower c) = pyToLower c := by
  have ht := pyToLower_toNat c
  by_cases h : 65 ≤ c.toNat ∧ c.toNat ≤ 90 <;>
    [rw [if_pos h] at ht; rw [if_neg h] at ht] <;>
    · conv_lhs => rw [pyToLower]
      rw [if_neg (by omega)]

theorem pyToUpper_idem (c : Char) : pyToUpper (pyToUpper c) = pyToUpper c := by
  have ht := pyToUpper_toNat c
  by_cases h : 97 ≤ c.toNat ∧ c.toNat ≤ 122 <;>
    [rw [if_pos h] at ht; rw [if_neg h] at ht] <;>
    · conv_lhs => rw [pyToUpper]
      rw [if_neg (by omega)]

theorem pyToLower_fixed_iff (c : Char) :
    pyToLower c = c ↔ ¬(65 ≤ c.toNat ∧ c.toNat ≤ 90) := by
  constructor
  · intro h hin
    have := congrArg Char.toNat h
    rw [pyToLower_toNat, if_pos hin] at this
    omega
  · intro h
    rw [pyToLower, if_neg h]

theorem pyToLower_pyToUpper_of_lower (c : Char) (h : pyToLower c = c) :
    pyToLower (pyToUpper c) = c := by
  have hn := (pyToLower_fixed_iff c).mp h
  by_cases hc : 97 ≤ c.toNat ∧ c.toNat ≤ 122
  · have htu : (pyToUpper c).toNat = c.toNat - 32 := by
      rw [pyToUpper_toNat, if_pos hc]
    rw [pyToLower, if_pos (by omega)]
    have : (pyToUpper c).toNat + 32 = c.toNat := by omega
    rw [this, Char.ofNat_toNat]
  · rw [pyToUpper, if_neg hc]
    exact h

theorem pyToLower_range (c : Char) (h : 33 ≤ c.toNat ∧ c.toNat ≤ 126) :
    33 ≤ (pyToLower c).toNat ∧ (pyToLower c).toNat ≤ 126 := by
  have := pyToLower_toNat c
  split_ifs at this <;> omega

theorem pyToUpper_range (c : Char) (h : 33 ≤ c.toNat ∧ c.toNat ≤ 126) :
    33 ≤ (pyToUpper c).toNat ∧ (pyToUpper c).toNat ≤ 126 := by
  have := pyToUpper_toNat c
  split_ifs at this <;> omega

/-! ### `lastOneIdx` inversion -/

theorem lastOneIdx_none_imp (l : List Char) (h : lastOneIdx l = none) :
    ∀ c ∈ l, c ≠ '1' := by
  induction l with
  | nil => intro c hc; simp at hc
  | cons c t ih =>
    rw [lastOneIdx] at h
    intro x hx
    rcases List.mem_cons.mp hx with rfl | hx
    · cases htl : lastOneIdx t with
      | some i => rw [htl] at h; simp at h
      | none =>
        rw [htl] at h
        intro hq
        rw [if_pos hq] at h
        simp at h
    · cases htl : lastOneIdx t with
      | some i => rw [htl] at h; simp at h
      | none => exact ih htl x hx

theorem lastOneIdx_spec (l : List Char) :
    ∀ i : Nat, lastOneIdx l = some i →
      ∃ pre post, l = pre ++ '1' :: post ∧ pre.length = i ∧ ∀ c ∈ post, c ≠ '1' := by
  induction l with
  | nil => intro i h; simp [lastOneIdx] at h
  | cons c t ih =>
    intro i h
    rw [lastOneIdx] at h
    cases htl : lastOneIdx t with
    | some j =>
      rw [htl] at h
      have hi : i = j + 1 := (Option.some.inj h).symm
      obtain ⟨pre, post, heq, hlen, hno⟩ := ih j htl
      exact ⟨c :: pre, post, by simp [heq], by simp [hlen, hi], hno⟩
    | none =>
      rw [htl] at h
      by_cases hc : c = '1'
      · rw [if_pos hc] at h
        have hi : i = 0 := (Option.some.inj h).symm
        exact ⟨[], t, by simp [hc], by simp [hi], lastOneIdx_none_imp t htl⟩
      · rw [if_neg hc] at h
        simp at h

/-! ### `bech32_decode` success inversion -/

theorem bech32_decode_ok_inversion (s : String) (pfxs : String) (D : List Nat)
    (h : bech32_decode s = some (pfxs, D)) :
    ∃ pos,
      lastOneIdx (s.data.map pyToLower) = some pos ∧
      pfxs.data = (s.data.map pyToLower).take pos ∧
      1 ≤ pos ∧ pos + 7 ≤ s.data.length ∧ s.data.length ≤ 90 ∧
      (∀ c ∈ (s.data.map pyToLower).drop (pos + 1), c ∈ CHARSET) ∧
      bech32_verify_checksum ((s.data.map pyToLower).take pos)
        (((s.data.map pyToLower).drop (pos + 1)).map charsetIdx) = true ∧
      D = (((s.data.map pyToLower).drop (pos + 1)).map charsetIdx).take
        ((((s.data.map pyToLower).drop (pos + 1)).map charsetIdx).length - 6) ∧
      (∀ c ∈ s.data, 33 ≤ c.toNat ∧ c.toNat ≤ 126) ∧
      (s.data.map pyToLower = s.data ∨ s.data.map pyToUpper = s.data) := by
  rw [bech32_decode] at h
  split at h
  · exact absurd h (by simp)
  · rename_i hrange
    split at h
    · exact absurd h (by simp)
    · rename_i hcase
      have hchars : ∀ c ∈ s.data, 33 ≤ c.toNat ∧ c.toNat ≤ 126 := by
        intro c hc
        have hx : ¬ (c.toNat < 33 ∨ 126 < c.toNat) := by
          intro hcon
          exact hrange (List.any_eq_true.mpr ⟨c, hc, by simpa using hcon⟩)
        omega
      have hcase2 : s.data.map pyToLower = s.data ∨ s.data.map pyToUpper = s.data := by
        by_contra hcon
        push_neg at hcon
        exact hcase ⟨hcon.1, hcon.2⟩
      split at h
      · exact absurd h (by simp)
      · rename_i pos hpos
        split at h
        · exact absurd h (by simp)
        · rename_i hposcond
          split at h
          · rename_i hallc
            split at h
            · rename_i hver
              have hsome := Option.some.inj h
              have h1 : pfxs.data = (s.data.map pyToLower).take pos :=
                (congrArg String.data (congrArg Prod.fst hsome)).symm
              have h2 : D = (((s.data.map pyToLower).drop (pos + 1)).map charsetIdx).take
                  ((((s.data.map pyToLower).drop (pos + 1)).map charsetIdx).length - 6) :=
                (congrArg Prod.snd hsome).symm
              have hmem : ∀ c ∈ (s.data.map pyToLower).drop (pos + 1), c ∈ CHARSET := by
                intro c hc
                have := List.all_eq_true.mp hallc c hc
                exact List.elem_iff.mp this
              exact ⟨pos, hpos, h1, by omega, by omega, by omega, hmem, hver, h2,
                hchars, hcase2⟩
            · exact absurd h (by simp)
          · exact absurd h (by simp)

theorem getD_charsetIdx : ∀ c ∈ CHARSET, CHARSET.getD (charsetIdx c) 'q' = c := by
  decide

/-- A successful strict 5→8 regrouping producing 20 bytes forces exactly 32
five-bit groups, and the two directions are mutually inverse. -/
theorem nopad_20_inversion (d0 b : List Nat)
    (hall : ∀ v ∈ d0, v < 32)
    (hcb : convertbits d0 5 8 false = some b)
    (hlen : b.length = 20) :
    d0.length = 32 ∧ b = groupN 8 (d0.flatMap (natToBits 5)) ∧
      (∀ x ∈ b, x < 256) ∧ d0 = groupN 5 (b.flatMap (natToBits 8)) := by
  have hall' : ∀ v ∈ d0, v < 2 ^ 5 := by
    intro v hv
    have := hall v hv
    omega
  obtain ⟨hmod, hb⟩ := convertbits_nopad_inversion 5 8 d0 b (by norm_num) (by norm_num)
    hall' hcb
  have hfl : (d0.flatMap (natToBits 5)).length = 5 * d0.length :=
    flatMap_natToBits_length 5 d0
  have hdvd8 : 8 ∣ (5 * d0.length - (5 * d0.length) % 8) := by
    have := Nat.div_add_mod (5 * d0.length) 8
    exact ⟨5 * d0.length / 8, by omega⟩
  have htklen : ((d0.flatMap (natToBits 5)).take
      (5 * d0.length - (5 * d0.length) % 8)).length =
      5 * d0.length - (5 * d0.length) % 8 := by
    rw [List.length_take, hfl]
    omega
  have hblen := groupN_length 8 (by norm_num) _ _ htklen hdvd8
  rw [← hb, hlen] at hblen
  have hd032 : d0.length = 32 := by omega
  have hT : 5 * d0.length - (5 * d0.length) % 8 = 5 * d0.length := by omega
  have hb2 : b = groupN 8 (d0.flatMap (natToBits 5)) := by
    rw [hb, hT, List.take_of_length_le (by rw [hfl])]
  have hb256 : ∀ x ∈ b, x < 256 := by
    intro x hx
    rw [hb2] at hx
    exact groupN_all_lt 8 _ x hx
  refine ⟨hd032, hb2, hb256, ?_⟩
  have hflat : b.flatMap (natToBits 8) = d0.flatMap (natToBits 5) := by
    rw [hb2]
    exact flatMap_natToBits_groupN 8 (by norm_num) (5 * d0.length)
      (d0.flatMap (natToBits 5)) hfl (by rw [hd032]; norm_num)
  rw [hflat, groupN_flatMap_natToBits 5 (by norm_num) d0]
  symm
  calc d0.map (fun v => v % 2 ^ 5) = d0.map id := by
        apply List.map_congr_left
        intro v hv
        have := hall v hv
        simp
        omega
    _ = d0 := List.map_id d0

/-- Full characterization of a successful `decode_bech32`: the lowercased
input is exactly the bech32 encoding, under the decoded human-readable
part, of the 32 five-bit groups regrouped from the returned 20 bytes. -/
theorem decode_bech32_ok_full (s : String) (ep : Option String) (b : List Nat)
    (h : decode_bech32 s ep = Except.ok b) :
    ∃ (pre : List Char) (d : List Nat),
      b.length = 20 ∧ (∀ x ∈ b, x < 256) ∧
      d = groupN 5 (b.flatMap (natToBits 8)) ∧
      s.data.map pyToLower = (bech32_encode ⟨pre⟩ d).data ∧
      pre ≠ [] ∧ (∀ c ∈ pre, 33 ≤ c.toNat ∧ c.toNat ≤ 126) ∧
      (∀ c ∈ pre, pyToLower c = c) ∧ pre.length ≤ 51 ∧
      (ep.getD "" ≠ "" → String.mk pre = ep.getD "") ∧
      (s.data.map pyToLower = s.data ∨ s.data.map pyToUpper = s.data) := by
  rw [decode_bech32] at h
  split at h
  · exact absurd h (by simp)
  · rename_i pfxs d0 hdec
    split at h
    · exact absurd h (by simp)
    · rename_i hpfxcond
      split at h
      · exact absurd h (by simp)
      · rename_i b0 hcb
        split at h
        · exact absurd h (by simp)
        · rename_i hlen20
          obtain rfl : b = b0 := (Except.ok.inj h).symm
          push_neg at hlen20
          obtain ⟨pos, hpos, hpfx, hpos1, hpos7, hlen90, hmem, hver, hD, hchars, hcase⟩ :=
            bech32_decode_ok_inversion s pfxs d0 hdec
          obtain ⟨pre, post, hlowsplit, hprelen, _hno1⟩ :=
            lastOneIdx_spec (s.data.map pyToLower) pos hpos
          have hlowlen : (s.data.map pyToLower).length = s.data.length := by simp
          have htake_pre : (s.data.map pyToLower).take pos = pre := by
            rw [hlowsplit]
            exact List.take_left' hprelen
          have hdrop_post : (s.data.map pyToLower).drop (pos + 1) = post := by
            rw [hlowsplit, show pre ++ '1' :: post = (pre ++ ['1']) ++ post by simp,
              List.drop_left' (by simp [hprelen])]
          rw [hdrop_post] at hmem hD hver
          rw [htake_pre] at hpfx hver
          have hpostlen : post.length = s.data.length - pos - 1 := by
            have : (s.data.map pyToLower).length = pre.length + 1 + post.length := by
              rw [hlowsplit]
              simp
              omega
            omega
          have hDall : ∀ v ∈ post.map charsetIdx, v < 32 := by
            intro v hv
            obtain ⟨c, hc, rfl⟩ := List.mem_map.mp hv
            exact charsetIdx_lt c (hmem c hc)
          have hd0all : ∀ v ∈ d0, v < 32 := by
            intro v hv
            rw [hD] at hv
            exact hDall v (List.mem_of_mem_take hv)
          obtain ⟨hd032, _hb8, hb256, hd0groups⟩ :=
            nopad_20_inversion d0 b hd0all hcb hlen20
          have hDlen : (post.map charsetIdx).length = post.length := by simp
          have hd0len : d0.length = post.length - 6 := by
            rw [hD, List.length_take, hDlen]
            omega
          have hpost38 : post.length = 38 := by omega
          have hFullsplit : post.map charsetIdx =
              d0 ++ (post.map charsetIdx).drop 32 := by
            conv_lhs => rw [← List.take_append_drop 32 (post.map charsetIdx)]
            congr 1
            rw [hD]
            congr 1
            rw [hDlen, hpost38]
          have hchk6 : ((post.map charsetIdx).drop 32).length = 6 := by
            rw [List.length_drop, hDlen, hpost38]
          have hchkall : ∀ v ∈ (post.map charsetIdx).drop 32, v < 32 := by
            intro v hv
            exact hDall v (List.mem_of_mem_drop hv)
          have hver2 : bech32_verify_checksum pre
              (d0 ++ (post.map charsetIdx).drop 32) = true := by
            rw [← hFullsplit]
            exact hver
          have hchkuniq : (post.map charsetIdx).drop 32 =
              bech32_create_checksum pre d0 :=
            checksum_unique pre d0 _ hchk6 hchkall hver2
          have hpostmap : post = (d0 ++ bech32_create_checksum pre d0).map
              (fun v => CHARSET.getD v 'q') := by
            rw [← hchkuniq, ← hFullsplit, List.map_map]
            calc post = post.map id := (List.map_id post).symm
              _ = _ := List.map_congr_left (fun c hc =>
                  (getD_charsetIdx c (hmem c hc)).symm)
          have hlow_enc : s.data.map pyToLower = (bech32_encode ⟨pre⟩ d0).data := by
            rw [hlowsplit, bech32_encode, hpostmap]
          have hprechars : ∀ c ∈ pre, 33 ≤ c.toNat ∧ c.toNat ≤ 126 := by
            intro c hc
            have hcl : c ∈ s.data.map pyToLower := by
              rw [hlowsplit]
              exact List.mem_append.mpr (Or.inl hc)
            obtain ⟨c0, hc0, rfl⟩ := List.mem_map.mp hcl
            exact pyToLower_range c0 (hchars c0 hc0)
          have hprelow : ∀ c ∈ pre, pyToLower c = c := by
            intro c hc
            have hcl : c ∈ s.data.map pyToLower := by
              rw [hlowsplit]
              exact List.mem_append.mpr (Or.inl hc)
            obtain ⟨c0, hc0, rfl⟩ := List.mem_map.mp hcl
            exact pyToLower_idem c0
          refine ⟨pre, d0, hlen20, hb256, hd0groups, hlow_enc, ?_, hprechars, hprelow,
            by omega, ?_, hcase⟩
          · intro hpre
            rw [hpre] at hprelen
            simp at hprelen
            omega
          · intro hne
            have hp2 : pfxs = ep.getD "" := by
              by_contra hq
              exact hpfxcond ⟨hne, hq⟩
            rw [← hp2]
            have : pfxs = String.mk pfxs.data := rfl
            rw [this, hpfx]

theorem isHexChar_cases (c : Char) (h : isHexChar c = true) :
    (48 ≤ c.toNat ∧ c.toNat ≤ 57) ∨ (97 ≤ c.toNat ∧ c.toNat ≤ 102) ∨
      (65 ≤ c.toNat ∧ c.toNat ≤ 70) := by
  simpa [isHexChar] using h

theorem hexVal_of_hex (c : Char) (h : isHexChar c = true) :
    hexVal c = some ((hexVal c).getD 0) ∧ (hexVal c).getD 0 < 16 := by
  rcases isHexChar_cases c h with h1 | h1 | h1
  · rw [hexVal, if_pos h1]
    exact ⟨rfl, by simp; omega⟩
  · rw [hexVal, if_neg (by omega), if_pos h1]
    exact ⟨rfl, by simp; omega⟩
  · rw [hexVal, if_neg (by omega), if_neg (by omega), if_pos h1]
    exact ⟨rfl, by simp; omega⟩

theorem hex_not_space (c : Char) (h : isHexChar c = true) : isAsciiSpace c = false := by
  rcases isHexChar_cases c h with h1 | h1 | h1 <;>
    · simp [isAsciiSpace]
      omega

theorem hexVal_eq_some (c : Char) (h : isHexChar c = true) :
    ∃ v, hexVal c = some v ∧ v < 16 ∧ (hexVal c).getD 0 = v := by
  rcases isHexChar_cases c h with h1 | h1 | h1
  · rw [hexVal, if_pos h1]
    exact ⟨c.toNat - 48, rfl, by omega, rfl⟩
  · rw [hexVal, if_neg (by omega), if_pos h1]
    exact ⟨c.toNat - 87, rfl, by omega, rfl⟩
  · rw [hexVal, if_neg (by omega), if_neg (by omega), if_pos h1]
    exact ⟨c.toNat - 55, rfl, by omega, rfl⟩

theorem bytesFromHexAux_hex :
    ∀ (n : Nat) (l tail : List Char), l.length = n →
      (∀ c ∈ l, isHexChar c = true) → 2 ∣ n →
      bytesFromHexAux tail = some [] →
      bytesFromHexAux (l ++ tail) = some (hexPairs l) := by
  intro n
  induction n using Nat.strong_induction_on with
  | _ n ih =>
    intro l tail hlen hhex heven htail
    match l with
    | [] =>
      simpa [hexPairs] using htail
    | [c] =>
      rw [← hlen] at heven
      simp at heven
    | c1 :: c2 :: rest =>
      have hlen2 : rest.length + 2 = n := by simpa using hlen
      have hc1 := hhex c1 (by simp)
      have hc2 := hhex c2 (by simp)
      obtain ⟨v1, hv1, _, hg1⟩ := hexVal_eq_some c1 hc1
      obtain ⟨v2, hv2, _, hg2⟩ := hexVal_eq_some c2 hc2
      have hrec := ih (n - 2) (by omega) rest tail (by omega)
        (fun c hc => hhex c (by simp [hc])) (Nat.dvd_sub' heven (by norm_num)) htail
      rw [show (c1 :: c2 :: rest) ++ tail = c1 :: c2 :: (rest ++ tail) by simp]
      rw [bytesFromHexAux, if_neg (by simp [hex_not_space c1 hc1])]
      rw [hexPairs, hg1, hg2]
      simp only [hv1, hv2, hrec]

theorem hexPairs_length :
    ∀ (n : Nat) (l : List Char), l.length = n → 2 ∣ n →
      (hexPairs l).length = n / 2 := by
  intro n
  induction n using Nat.strong_induction_on with
  | _ n ih =>
    intro l hlen heven
    match l with
    | [] => simp [hexPairs, ← hlen]
    | [c] =>
      rw [← hlen] at heven
      simp at heven
    | c1 :: c2 :: rest =>
      have hlen2 : rest.length + 2 = n := by simpa using hlen
      rw [hexPairs]
      have hrec := ih (n - 2) (by omega) rest (by omega)
        (Nat.dvd_sub' heven (by norm_num))
      simp only [List.length_cons, hrec]
      omega

theorem hexPairs_lt256 :
    ∀ (n : Nat) (l : List Char), l.length = n →
      (∀ c ∈ l, isHexChar c = true) →
      ∀ x ∈ hexPairs l, x < 256 := by
  intro n
  induction n using Nat.strong_induction_on with
  | _ n ih =>
    intro l hlen hhex x hx
    match l with
    | [] => simp [hexPairs] at hx
    | [c] => simp [hexPairs] at hx
    | c1 :: c2 :: rest =>
      have hlen2 : rest.length + 2 = n := by simpa using hlen
      rw [hexPairs] at hx
      rcases List.mem_cons.mp hx with rfl | hx
      · obtain ⟨v1, _, hb1, hg1⟩ := hexVal_eq_some c1 (hhex c1 (by simp))
        obtain ⟨v2, _, hb2, hg2⟩ := hexVal_eq_some c2 (hhex c2 (by simp))
        rw [hg1, hg2]
        omega
      · exact ih (n - 2) (by omega) rest (by omega)
          (fun c hc => hhex c (by simp [hc])) x hx

theorem hexDigitChar_spec (v : Nat) (h : v < 16) :
    hexVal (hexDigitChar v) = some v ∧ isHexChar (hexDigitChar v) = true ∧
      isAsciiSpace (hexDigitChar v) = false := by
  interval_cases v <;> exact ⟨by decide, by decide, by decide⟩

theorem hexDigitChar_of_hexChar (c : Char) (h : isHexChar c = true) :
    hexDigitChar ((hexVal c).getD 0) = pyToLower c := by
  rcases isHexChar_cases c h with h1 | h1 | h1
  · rw [hexVal, if_pos h1]
    simp only [Option.getD_some]
    rw [hexDigitChar, if_pos (by omega), pyToLower, if_neg (by omega),
        show 48 + (c.toNat - 48) = c.toNat by omega, Char.ofNat_toNat]
  · rw [hexVal, if_neg (by omega), if_pos h1]
    simp only [Option.getD_some]
    rw [hexDigitChar, if_neg (by omega), pyToLower, if_neg (by omega),
        show 87 + (c.toNat - 87) = c.toNat by omega, Char.ofNat_toNat]
  · rw [hexVal, if_neg (by omega), if_neg (by omega), if_pos h1]
    simp only [Option.getD_some]
    rw [hexDigitChar, if_neg (by omega), pyToLower, if_pos (by omega),
        show 87 + (c.toNat - 55) = c.toNat + 32 by omega]

theorem byteToHexChars_pair (v1 v2 : Nat) (h1 : v1 < 16) (h2 : v2 < 16) :
    byteToHexChars (16 * v1 + v2) = [hexDigitChar v1, hexDigitChar v2] := by
  rw [byteToHexChars,
      show (16 * v1 + v2) / 16 = v1 by omega,
      show (16 * v1 + v2) % 16 = v2 by omega]

theorem flatMap_hexPairs :
    ∀ (n : Nat) (l : List Char), l.length = n →
      (∀ c ∈ l, isHexChar c = true) → 2 ∣ n →
      (hexPairs l).flatMap byteToHexChars = l.map pyToLower := by
  intro n
  induction n using Nat.strong_induction_on with
  | _ n ih =>
    intro l hlen hhex heven
    match l with
    | [] => rfl
    | [c] =>
      rw [← hlen] at heven
      simp at heven
    | c1 :: c2 :: rest =>
      have hlen2 : rest.length + 2 = n := by simpa using hlen
      have hc1 := hhex c1 (by simp)
      have hc2 := hhex c2 (by simp)
      obtain ⟨v1, _, hb1, hg1⟩ := hexVal_eq_some c1 hc1
      obtain ⟨v2, _, hb2, hg2⟩ := hexVal_eq_some c2 hc2
      rw [hexPairs, List.flatMap_cons, hg1, hg2,
          byteToHexChars_pair v1 v2 hb1 hb2,
          ← hg1, ← hg2,
          hexDigitChar_of_hexChar c1 hc1, hexDigitChar_of_hexChar c2 hc2,
          ih (n - 2) (by omega) rest (by omega)
            (fun c hc => hhex c (by simp [hc])) (Nat.dvd_sub' heven (by norm_num))]
      rfl

theorem bytesFromHexAux_of_bytes (bs : List Nat) (tail : List Char)
    (hall : ∀ b ∈ bs, b < 256) (htail : bytesFromHexAux tail = some []) :
    bytesFromHexAux (bs.flatMap byteToHexChars ++ tail) = some bs := by
  induction bs with
  | nil => simpa using htail
  | cons b rest ih =>
    have hb : b < 256 := hall b (by simp)
    have hd1 : b / 16 < 16 := by omega
    have hd2 : b % 16 < 16 := by omega
    obtain ⟨he1, hh1, hs1⟩ := hexDigitChar_spec (b / 16) hd1
    obtain ⟨he2, _, _⟩ := hexDigitChar_spec (b % 16) hd2
    rw [List.flatMap_cons, byteToHexChars]
    rw [show ([hexDigitChar (b / 16), hexDigitChar (b % 16)] ++
        rest.flatMap byteToHexChars) ++ tail =
        hexDigitChar (b / 16) :: hexDigitChar (b % 16) ::
          (rest.flatMap byteToHexChars ++ tail) by simp]
    rw [bytesFromHexAux, if_neg (by simp [hs1])]
    simp only [he1, he2, ih (fun x hx => hall x (by simp [hx]))]
    congr 2
    omega

theorem groupsOf_length (b : List Nat) (hb20 : b.length = 20) :
    (groupsOf b).length = 32 := by
  rw [groupsOf, groupN_length 5 (by norm_num) 160 _
    (by rw [flatMap_natToBits_length, hb20]) (by norm_num)]

theorem groupsOf_lt (b : List Nat) : ∀ v ∈ groupsOf b, v < 32 :=
  groupN_all_lt 5 _

theorem convertbits_8_5_eq (b : List Nat) (hb20 : b.length = 20)
    (hball : ∀ x ∈ b, x < 256) :
    convertbits b 8 5 true = some (groupsOf b) :=
  convertbits_exact 8 5 b true (by norm_num) (by norm_num)
    (fun v hv => by have := hball v hv; omega)
    (by rw [hb20]; norm_num)

theorem convertbits_5_8_back (b : List Nat) (hb20 : b.length = 20)
    (hball : ∀ x ∈ b, x < 256) :
    convertbits (groupsOf b) 5 8 false = some b := by
  have hflatlen : (b.flatMap (natToBits 8)).length = 160 := by
    rw [flatMap_natToBits_length, hb20]
  have h := convertbits_exact 5 8 (groupsOf b) false (by norm_num) (by norm_num)
    (groupsOf_lt b) (by rw [groupsOf_length b hb20]; norm_num)
  rw [h, groupsOf, flatMap_natToBits_groupN 5 (by norm_num) 160 _ hflatlen (by norm_num),
      groupN_flatMap_natToBits 8 (by norm_num) b]
  congr 1
  calc b.map (fun v => v % 2 ^ 8) = b.map id := by
        apply List.map_congr_left
        intro v hv
        have := hball v hv
        simp
        omega
    _ = b := List.map_id b

/-- Decoding (through `_decode_bech32`) the bech32 encoding of a 20-byte
address under any admissible expected-prefix argument returns the bytes. -/
theorem decode_bech32_encode_groups (p : List Char) (b : List Nat) (ep : Option String)
    (hp1 : p ≠ []) (hp2 : ∀ c ∈ p, 33 ≤ c.toNat ∧ c.toNat ≤ 126)
    (hp3 : ∀ c ∈ p, pyToLower c = c) (hplen : p.length ≤ 51)
    (hb20 : b.length = 20) (hball : ∀ x ∈ b, x < 256)
    (hep : ep.getD "" = "" ∨ ep.getD "" = String.mk p) :
    decode_bech32 (bech32_encode ⟨p⟩ (groupsOf b)) ep = Except.ok b := by
  have hdec : bech32_decode (bech32_encode ⟨p⟩ (groupsOf b)) =
      some (⟨p⟩, groupsOf b) :=
    bech32_decode_encode p (groupsOf b) hp1 hp2 hp3 (groupsOf_lt b)
      (by rw [groupsOf_length b hb20]; omega)
  rw [decode_bech32]
  simp only [hdec]
  rw [if_neg (by
    rcases hep with hep | hep
    · intro hcon
      exact hcon.1 hep
    · intro hcon
      exact hcon.2 hep.symm)]
  simp only [convertbits_5_8_back b hb20 hball]
  rw [if_neg (by omega)]

theorem parseEvmHex_hex_output (b : List Nat) (hball : ∀ x ∈ b, x < 256) :
    parseEvmHex ("0x" ++ bytesToHex b) = some b := by
  have hdata : ("0x" ++ bytesToHex b).data = '0' :: 'x' :: b.flatMap byteToHexChars := by
    rw [String.data_append]
    rfl
  rw [parseEvmHex, hdata]
  rw [if_pos (show List.take 2 ('0' :: 'x' :: b.flatMap byteToHexChars) = ['0', 'x']
    from rfl)]
  show bytesFromHexAux (b.flatMap byteToHexChars) = some b
  have := bytesFromHexAux_of_bytes b [] hball rfl
  simpa using this

theorem evmMatch_true_inversion (s : String) (h : evmMatch s = true) :
    ∃ hs tail, s.data = ('0' :: 'x' :: hs) ++ tail ∧ hs.length = 40 ∧
      (∀ c ∈ hs, isHexChar c = true) ∧ (tail = [] ∨ tail = ['\n']) := by
  rw [evmMatch, pyMatchEnd, Bool.or_eq_true] at h
  have hcore : ∀ l : List Char, evmCore l = true →
      ∃ hs, l = '0' :: 'x' :: hs ∧ hs.length = 40 ∧ ∀ c ∈ hs, isHexChar c = true := by
    intro l hl
    rw [evmCore] at hl
    simp only [Bool.and_eq_true, decide_eq_true_eq, List.all_eq_true] at hl
    obtain ⟨⟨hlen, htake⟩, hhex⟩ := hl
    refine ⟨l.drop 2, ?_, by simp [hlen], hhex⟩
    conv_lhs => rw [← List.take_append_drop 2 l]
    rw [htake]
    rfl
  rcases h with h | h
  · obtain ⟨hs, heq, hlen, hhex⟩ := hcore s.data h
    exact ⟨hs, [], by simp [heq], hlen, hhex, Or.inl rfl⟩
  · rw [Bool.and_eq_true, decide_eq_true_eq] at h
    obtain ⟨hlast, hcore2⟩ := h
    obtain ⟨ys, hys⟩ := List.getLast?_eq_some_iff.mp hlast
    have hdl : s.data.dropLast = ys := by
      rw [hys, List.dropLast_concat]
    rw [hdl] at hcore2
    obtain ⟨hs, heq, hlen, hhex⟩ := hcore ys hcore2
    exact ⟨hs, [Char.ofNat 10], by rw [hys, heq], hlen, hhex, Or.inr (by decide)⟩

theorem evm_to_injective_of_match (s : String) (hs tail : List Char)
    (hshape : s.data = ('0' :: 'x' :: hs) ++ tail) (hlen : hs.length = 40)
    (hhex : ∀ c ∈ hs, isHexChar c = true) (htail : tail = [] ∨ tail = ['\n'])
    (hmactch : evmMatch s = true) :
    evm_to_injective s = Except.ok (bech32_encode INJ_PFX (groupsOf (hexPairs hs))) ∧
      bytesFromHex ⟨s.data.drop 2⟩ = some (hexPairs hs) ∧
      (hexPairs hs).length = 20 ∧ (∀ x ∈ hexPairs hs, x < 256) := by
  have hdrop : s.data.drop 2 = hs ++ tail := by
    rw [hshape]
    rfl
  have htailaux : bytesFromHexAux tail = some [] := by
    rcases htail with rfl | rfl
    · rfl
    · decide
  have hfromhex : bytesFromHex ⟨s.data.drop 2⟩ = some (hexPairs hs) := by
    rw [bytesFromHex, hdrop]
    exact bytesFromHexAux_hex 40 hs tail hlen hhex (by norm_num) htailaux
  have hp20 : (hexPairs hs).length = 20 :=
    hexPairs_length 40 hs hlen (by norm_num)
  have hp256 : ∀ x ∈ hexPairs hs, x < 256 := hexPairs_lt256 40 hs hlen hhex
  refine ⟨?_, hfromhex, hp20, hp256⟩
  rw [evm_to_injective, if_pos hmactch]
  simp only [hfromhex, convertbits_8_5_eq (hexPairs hs) hp20 hp256]

theorem evm_to_injective_ok_inversion (s t : String)
    (h : evm_to_injective s = Except.ok t) :
    ∃ hs tail, s.data = ('0' :: 'x' :: hs) ++ tail ∧ hs.length = 40 ∧
      (∀ c ∈ hs, isHexChar c = true) ∧ (tail = [] ∨ tail = ['\n']) ∧
      evmMatch s = true ∧
      t = bech32_encode INJ_PFX (groupsOf (hexPairs hs)) := by
  have hm : evmMatch s = true := by
    by_contra hq
    rw [evm_to_injective, if_neg hq] at h
    exact absurd h (by simp)
  obtain ⟨hs, tail, hshape, hlen, hhex, htail⟩ := evmMatch_true_inversion s hm
  obtain ⟨heq, _, _, _⟩ := evm_to_injective_of_match s hs tail hshape hlen hhex htail hm
  rw [heq] at h
  exact ⟨hs, tail, hshape, hlen, hhex, htail, hm, (Except.ok.inj h).symm⟩

theorem injective_to_evm_ok_inversion (s t : String)
    (h : injective_to_evm s = Except.ok t) :
    ∃ b, decode_bech32 s (some INJ_PFX) = Except.ok b ∧
      t = "0x" ++ bytesToHex b := by
  rw [injective_to_evm] at h
  split at h
  · exact absurd h (by simp)
  · rename_i b hb
    exact ⟨b, hb, (Except.ok.inj h).symm⟩

theorem cosmos_to_injective_ok_inversion (s t : String)
    (h : cosmos_to_injective s = Except.ok t) :
    ∃ b, decode_bech32 s none = Except.ok b ∧ b.length = 20 ∧
      (∀ x ∈ b, x < 256) ∧ t = bech32_encode INJ_PFX (groupsOf b) := by
  rw [cosmos_to_injective] at h
  split at h
  · exact absurd h (by simp)
  · rename_i b hb
    obtain ⟨_, _, hb20, hb256, _⟩ := decode_bech32_ok_full s none b hb
    rw [convertbits_8_5_eq b hb20 hb256] at h
    exact ⟨b, hb, hb20, hb256, (Except.ok.inj h).symm⟩

theorem decode_bech32_some_to_none (s : String) (p : String) (b : List Nat)
    (h : decode_bech32 s (some p) = Except.ok b) :
    decode_bech32 s none = Except.ok b := by
  rw [decode_bech32] at h ⊢
  split at h
  · exact absurd h (by simp)
  · rename_i pfxs d0 hdec
    rw [if_neg (by simp)]
    split at h
    · exact absurd h (by simp)
    · exact h

theorem evmCore_iff (l : List Char) : evmCore l = true ↔ EvmPat l := by
  constructor
  · intro hl
    rw [evmCore] at hl
    simp only [Bool.and_eq_true, decide_eq_true_eq, List.all_eq_true] at hl
    obtain ⟨⟨hlen, htake⟩, hhex⟩ := hl
    refine ⟨l.drop 2, ?_, by simp [hlen], hhex⟩
    conv_lhs => rw [← List.take_append_drop 2 l]
    rw [htake]
    rfl
  · rintro ⟨hs, rfl, hlen, hhex⟩
    rw [evmCore]
    simp only [Bool.and_eq_true, decide_eq_true_eq, List.all_eq_true]
    exact ⟨⟨by simp [hlen], rfl⟩, hhex⟩

theorem lowerAlpha_ne_one (c : Char) (h : isLowerAlpha c = true) : c ≠ '1' := by
  intro hq
  subst hq
  simp [isLowerAlpha] at h

theorem takeWhile_first_one (l : List Char)
    (hlt : (l.takeWhile (fun c => c ≠ '1')).length < l.length) :
    l = l.takeWhile (fun c => c ≠ '1') ++
      '1' :: l.drop ((l.takeWhile (fun c => c ≠ '1')).length + 1) := by
  induction l with
  | nil => simp at hlt
  | cons c t ih =>
    by_cases hc : c = '1'
    · subst hc
      rw [List.takeWhile_cons, if_neg (by simp)]
      simp
    · rw [List.takeWhile_cons, if_pos (by simp [hc])] at hlt ⊢
      simp only [List.length_cons] at hlt
      have hlt2 : (t.takeWhile (fun c => c ≠ '1')).length < t.length := by omega
      conv_lhs => rw [ih hlt2]
      simp

theorem takeWhile_of_no_one (p : List Char) (q : List Char)
    (hp : ∀ c ∈ p, c ≠ '1') :
    (p ++ '1' :: q).takeWhile (fun c => c ≠ '1') = p := by
  induction p with
  | nil =>
    rw [List.nil_append, List.takeWhile_cons, if_neg (by simp)]
  | cons c t ih =>
    rw [List.cons_append, List.takeWhile_cons, if_pos (by simp [hp c (by simp)])]
    rw [ih (fun x hx => hp x (by simp [hx]))]

theorem bechCore_iff (l : List Char) : bechCore l = true ↔ BechPat l := by
  constructor
  · intro hl
    rw [bechCore] at hl
    simp only [Bool.and_eq_true, decide_eq_true_eq, List.all_eq_true] at hl
    obtain ⟨⟨⟨⟨hne, halpha⟩, hlt⟩, halnum⟩, h38⟩ := hl
    refine ⟨l.takeWhile (fun c => c ≠ '1'),
      l.drop ((l.takeWhile (fun c => c ≠ '1')).length + 1),
      takeWhile_first_one l hlt, hne, halpha, halnum, h38⟩
  · rintro ⟨p, q, rfl, hne, halpha, halnum, h38⟩
    have htw : ((p ++ '1' :: q).takeWhile (fun c => c ≠ '1')) = p :=
      takeWhile_of_no_one p q (fun c hc => lowerAlpha_ne_one c (halpha c hc))
    have hdrop : (p ++ '1' :: q).drop (p.length + 1) = q := by
      rw [show p ++ '1' :: q = (p ++ ['1']) ++ q by simp, List.drop_left' (by simp)]
    rw [bechCore, htw, hdrop]
    simp only [Bool.and_eq_true, decide_eq_true_eq, List.all_eq_true]
    refine ⟨⟨⟨⟨hne, halpha⟩, by simp⟩, halnum⟩, h38⟩

theorem pyMatchEnd_iff (core : List Char → Bool) (pat : List Char → Prop)
    (hiff : ∀ l, core l = true ↔ pat l) (s : String) :
    pyMatchEnd core s.data = true ↔ PyDollar pat s := by
  rw [pyMatchEnd, Bool.or_eq_true, Bool.and_eq_true, decide_eq_true_eq]
  constructor
  · rintro (h | ⟨hlast, hcore⟩)
    · exact Or.inl ((hiff _).mp h)
    · obtain ⟨ys, hys⟩ := List.getLast?_eq_some_iff.mp hlast
      have hdl : s.data.dropLast = ys := by rw [hys, List.dropLast_concat]
      rw [hdl] at hcore
      exact Or.inr ⟨ys, hys, (hiff _).mp hcore⟩
  · rintro (h | ⟨t, ht, hpat⟩)
    · exact Or.inl ((hiff _).mpr h)
    · refine Or.inr ⟨?_, ?_⟩
      · rw [ht, List.getLast?_concat]
      · have hdl : s.data.dropLast = t := by rw [ht, List.dropLast_concat]
        rw [hdl]
        exact (hiff _).mpr hpat

theorem evmMatch_iff (s : String) : evmMatch s = true ↔ PyDollar EvmPat s :=
  pyMatchEnd_iff evmCore EvmPat evmCore_iff s

theorem bechMatch_iff (s : String) : bechMatch s = true ↔ PyDollar BechPat s :=
  pyMatchEnd_iff bechCore BechPat bechCore_iff s

theorem convOk_of_ok {a : String} {r : WalletConversionResponse}
    (h : convert_address a = Except.ok r) : convOk a = some r := by
  rw [convOk, h]
  rfl

theorem convOk_of_error {a : String} {e : String}
    (h : convert_address a = Except.error e) : convOk a = none := by
  rw [convOk, h]
  rfl

theorem convErr_of_ok {a : String} {r : WalletConversionResponse}
    (h : convert_address a = Except.ok r) : convErr a = none := by
  unfold convErr
  rw [h]

theorem convErr_of_error {a : String} {e : String}
    (h : convert_address a = Except.error e) : convErr a = some (a, e) := by
  unfold convErr
  rw [h]

theorem foldl_batchStep (l : List String) :
    ∀ acc : List WalletConversionResponse × List (String × String),
      l.foldl batchStep acc =
        (acc.1 ++ l.filterMap convOk, acc.2 ++ l.filterMap convErr) := by
  induction l with
  | nil => intro acc; simp
  | cons a t ih =>
    intro acc
    rw [List.foldl_cons, batchStep]
    cases hca : convert_address a with
    | ok r =>
      rw [ih, List.filterMap_cons, List.filterMap_cons, convOk_of_ok hca,
          convErr_of_ok hca]
      simp
    | error e =>
      rw [ih, List.filterMap_cons, List.filterMap_cons, convOk_of_error hca,
          convErr_of_error hca]
      simp

theorem filterMap_batch_lengths (l : List String) :
    (l.filterMap convOk).length + (l.filterMap convErr).length = l.length := by
  induction l with
  | nil => rfl
  | cons a t ih =>
    rw [List.filterMap_cons, List.filterMap_cons]
    cases hca : convert_address a with
    | ok r =>
      rw [convOk_of_ok hca, convErr_of_ok hca]
      simp only [List.length_cons]
      omega
    | error e =>
      rw [convOk_of_error hca, convErr_of_error hca]
      simp only [List.length_cons]
      omega

/-! ### `convert_address` branch inversion -/

theorem convert_address_ok_inversion (s : String) (r : WalletConversionResponse)
    (h : convert_address s = Except.ok r) :
    (∃ inj, evmMatch s = true ∧ evm_to_injective s = Except.ok inj ∧
       r = ⟨s, inj, pyStrLower s, "evm", none⟩) ∨
    (∃ evm, evmMatch s = false ∧ bechMatch s = true ∧ beforeFirstOne s = INJ_PFX ∧
       injective_to_evm s = Except.ok evm ∧
       r = ⟨s, s, evm, "injective", some INJ_PFX⟩) ∨
    (∃ inj evm, evmMatch s = false ∧ bechMatch s = true ∧
       beforeFirstOne s ≠ INJ_PFX ∧
       cosmos_to_injective s = Except.ok inj ∧ injective_to_evm inj = Except.ok evm ∧
       r = ⟨s, inj, evm, "cosmos", some (beforeFirstOne s)⟩) := by
  rw [convert_address] at h
  split at h
  · exact absurd h (by simp)
  · rename_i st cp hdet
    rw [detect_address_type] at hdet
    split at hdet
    · rename_i hevm
      injection Except.ok.inj hdet with hst hcp
      subst hst
      subst hcp
      rw [if_pos rfl] at h
      split at h
      · exact absurd h (by simp)
      · rename_i inj hinj
        exact Or.inl ⟨inj, hevm, hinj, (Except.ok.inj h).symm⟩
    · rename_i hevm
      split at hdet
      · rename_i hbech
        split at hdet
        · rename_i hpfx
          injection Except.ok.inj hdet with hst hcp
          subst hst
          subst hcp
          rw [if_neg (by decide), if_pos rfl] at h
          split at h
          · exact absurd h (by simp)
          · rename_i evm hevmaddr
            exact Or.inr (Or.inl ⟨evm, by simpa using hevm, hbech, hpfx, hevmaddr,
              (Except.ok.inj h).symm⟩)
        · rename_i hpfx
          injection Except.ok.inj hdet with hst hcp
          subst hst
          subst hcp
          rw [if_neg (by decide), if_neg (by decide)] at h
          split at h
          · exact absurd h (by simp)
          · rename_i inj hinj
            split at h
            · exact absurd h (by simp)
            · rename_i evm hevmaddr
              exact Or.inr (Or.inr ⟨inj, evm, by simpa using hevm, hbech, hpfx,
                hinj, hevmaddr, (Except.ok.inj h).symm⟩)
      · exact absurd hdet (by simp)

/-! ### Case-mapping and hex auxiliaries for the claims -/

theorem pyToLower_pyToUpper (c : Char) (h : 33 ≤ c.toNat ∧ c.toNat ≤ 126) :
    pyToLower (pyToUpper c) = pyToLower c := by
  have H : ∀ n, n < 127 → 33 ≤ n →
      pyToLower (pyToUpper (Char.ofNat n)) = pyToLower (Char.ofNat n) := by decide
  have h2 := H c.toNat (by omega) (by omega)
  rwa [Char.ofNat_toNat] at h2

theorem hexVal_pyToLower (c : Char) (h : isHexChar c = true) :
    isHexChar (pyToLower c) = true ∧ hexVal (pyToLower c) = hexVal c := by
  rcases isHexChar_cases c h with h1 | h1 | h1
  · rw [pyToLower, if_neg (by omega)]
    exact ⟨h, rfl⟩
  · rw [pyToLower, if_neg (by omega)]
    exact ⟨h, rfl⟩
  · have ht : (Char.ofNat (c.toNat + 32)).toNat = c.toNat + 32 :=
      toNat_ofNat_small _ (by omega)
    have hpl : pyToLower c = Char.ofNat (c.toNat + 32) := by
      rw [pyToLower, if_pos (by omega)]
    constructor
    · rw [hpl]
      simp only [isHexChar, ht, decide_eq_true_eq]
      omega
    · have hL : hexVal (pyToLower c) = some (c.toNat - 55) := by
        rw [hpl, hexVal]
        simp only [ht]
        rw [if_neg (by omega), if_pos (by omega)]
        exact congrArg some (by omega)
      have hR : hexVal c = some (c.toNat - 55) := by
        rw [hexVal, if_neg (by omega), if_neg (by omega), if_pos h1]
      rw [hL, hR]

theorem hexPairs_map_pyToLower :
    ∀ (n : Nat) (l : List Char), l.length = n →
      (∀ c ∈ l, isHexChar c = true) →
      hexPairs (l.map pyToLower) = hexPairs l := by
  intro n
  induction n using Nat.strong_induction_on with
  | _ n ih =>
    intro l hlen hhex
    match l with
    | [] => rfl
    | [c] => rfl
    | c1 :: c2 :: rest =>
      have hlen2 : rest.length + 2 = n := by simpa using hlen
      obtain ⟨_, hv1⟩ := hexVal_pyToLower c1 (hhex c1 (by simp))
      obtain ⟨_, hv2⟩ := hexVal_pyToLower c2 (hhex c2 (by simp))
      rw [List.map_cons, List.map_cons, hexPairs, hexPairs, hv1, hv2,
          ih (n - 2) (by omega) rest (by omega) (fun c hc => hhex c (by simp [hc]))]

theorem parseEvmHex_pyStrLower (s : String) (hs tail : List Char)
    (hshape : s.data = ('0' :: 'x' :: hs) ++ tail) (hlen : hs.length = 40)
    (hhex : ∀ c ∈ hs, isHexChar c = true) (htail : tail = [] ∨ tail = ['\n']) :
    parseEvmHex (pyStrLower s) = some (hexPairs hs) := by
  have htmap : tail.map pyToLower = tail := by
    rcases htail with rfl | rfl
    · rfl
    · decide
  have hdata : (pyStrLower s).data = '0' :: 'x' :: (hs.map pyToLower ++ tail) := by
    show s.data.map pyToLower = _
    rw [hshape, List.map_append, List.map_cons, List.map_cons,
        (by decide : pyToLower '0' = '0'), (by decide : pyToLower 'x' = 'x'), htmap]
    rfl
  rw [parseEvmHex, hdata]
  rw [if_pos (show List.take 2 ('0' :: 'x' :: (hs.map pyToLower ++ tail)) = ['0', 'x']
    from rfl)]
  show bytesFromHexAux (hs.map pyToLower ++ tail) = some (hexPairs hs)
  have haux := bytesFromHexAux_hex 40 (hs.map pyToLower) tail (by simp [hlen])
    (fun c hc => by
      obtain ⟨c0, hc0, rfl⟩ := List.mem_map.mp hc
      exact (hexVal_pyToLower c0 (hhex c0 hc0)).1)
    (by norm_num)
    (by rcases htail with rfl | rfl
        · rfl
        · decide)
  rw [haux, hexPairs_map_pyToLower 40 hs hlen hhex]

/-! ### Canonical form of a lowercase decodable address -/

theorem canonical_of_decode_lower (a : String) (b : List Nat)
    (hdec : decode_bech32 a (some INJ_PFX) = Except.ok b)
    (hlow : a.data.map pyToLower = a.data) :
    a = bech32_encode INJ_PFX (groupsOf b) ∧ b.length = 20 ∧ ∀ x ∈ b, x < 256 := by
  obtain ⟨pre, d, hb20, hb256, hd, henc, _, _, _, _, hep, _⟩ :=
    decode_bech32_ok_full a (some INJ_PFX) b hdec
  have hmk : String.mk pre = INJ_PFX := hep (by decide)
  have hdg : d = groupsOf b := hd
  have hadata : a.data = (bech32_encode INJ_PFX (groupsOf b)).data := by
    rw [← hlow, henc, ← hmk, hdg]
  exact ⟨congrArg String.mk hadata, hb20, hb256⟩

/-! ### Uppercasing and the bech32 decoder -/

theorem decode_bech32_ok_chars (s : String) (ep : Option String) (b : List Nat)
    (h : decode_bech32 s ep = Except.ok b) :
    ∀ c ∈ s.data, 33 ≤ c.toNat ∧ c.toNat ≤ 126 := by
  rw [decode_bech32] at h
  split at h
  · exact absurd h (by simp)
  · rename_i pfxs d0 hdc
    obtain ⟨pos, _, _, _, _, _, _, _, _, hchars, _⟩ :=
      bech32_decode_ok_inversion s pfxs d0 hdc
    exact hchars

theorem bech32_decode_upper (s : String)
    (hlow : s.data.map pyToLower = s.data)
    (hchars : ∀ c ∈ s.data, 33 ≤ c.toNat ∧ c.toNat ≤ 126) :
    bech32_decode (pyStrUpper s) = bech32_decode s := by
  have hUdata : (pyStrUpper s).data = s.data.map pyToUpper := rfl
  have hUlow : (s.data.map pyToUpper).map pyToLower = s.data := by
    rw [List.map_map]
    calc s.data.map (pyToLower ∘ pyToUpper) = s.data.map pyToLower :=
          List.map_congr_left (fun c hc => pyToLower_pyToUpper c (hchars c hc))
      _ = s.data := hlow
  have hUup : (s.data.map pyToUpper).map pyToUpper = s.data.map pyToUpper := by
    rw [List.map_map]
    exact List.map_congr_left (fun c _ => pyToUpper_idem c)
  have hUrange : ∀ c ∈ s.data.map pyToUpper, 33 ≤ c.toNat ∧ c.toNat ≤ 126 := by
    intro c hc
    obtain ⟨c0, hc0, rfl⟩ := List.mem_map.mp hc
    exact pyToUpper_range c0 (hchars c0 hc0)
  have hanyU : ((s.data.map pyToUpper).any
      (fun c => decide (c.toNat < 33 ∨ 126 < c.toNat))) = false := by
    rw [List.any_eq_false]
    intro c hc
    simp only [decide_eq_true_eq]
    push_neg
    exact ⟨(hUrange c hc).1, (hUrange c hc).2⟩
  have hanyS : (s.data.any (fun c => decide (c.toNat < 33 ∨ 126 < c.toNat))) = false := by
    rw [List.any_eq_false]
    intro c hc
    simp only [decide_eq_true_eq]
    push_neg
    exact ⟨(hchars c hc).1, (hchars c hc).2⟩
  have hfx : ¬ (false = true) := by simp
  rw [bech32_decode, bech32_decode, hUdata, hanyU, hanyS, if_neg hfx, if_neg hfx]
  rw [if_neg (show ¬((s.data.map pyToUpper).map pyToLower ≠ s.data.map pyToUpper ∧
        (s.data.map pyToUpper).map pyToUpper ≠ s.data.map pyToUpper) from
      fun hq => hq.2 hUup)]
  rw [if_neg (show ¬(s.data.map pyToLower ≠ s.data ∧
        s.data.map pyToUpper ≠ s.data) from fun hq => hq.1 hlow)]
  rw [hUlow, hlow, (by simp : (s.data.map pyToUpper).length = s.data.length)]

theorem decode_bech32_upper_ok (s : String) (ep : Option String) (b : List Nat)
    (hlow : s.data.map pyToLower = s.data)
    (h : decode_bech32 s ep = Except.ok b) :
    decode_bech32 (pyStrUpper s) ep = Except.ok b := by
  have hchars := decode_bech32_ok_chars s ep b h
  have hbd := bech32_decode_upper s hlow hchars
  rw [decode_bech32] at h ⊢
  rw [hbd]
  split at h
  · exact absurd h (by simp)
  · rename_i pfxs d0 hdc
    split at h
    · exact absurd h (by simp)
    · rename_i hpfxcond
      rw [if_neg hpfxcond]
      split at h
      · exact absurd h (by simp)
      · rename_i bs hcb
        split at h
        · exact absurd h (by simp)
        · rename_i hl20
          rw [if_neg hl20]
          exact h

/-! ### Falsity of the matchers on uppercase input -/

theorem evmCore_false_of_take2 (l : List Char) (h : l.take 2 ≠ ['0', 'x']) :
    evmCore l = false := by
  rw [evmCore, decide_eq_false h]
  simp

theorem bechCore_false_of_head (c : Char) (t : List Char)
    (hne : c ≠ '1') (hc : isLowerAlpha c = false) :
    bechCore (c :: t) = false := by
  rw [bechCore, List.takeWhile_cons, if_pos (by simp [hne]), List.all_cons, hc]
  simp

theorem pyMatchEnd_false (core : List Char → Bool) (l : List Char)
    (h1 : core l = false) (h2 : core l.dropLast = false) :
    pyMatchEnd core l = false := by
  rw [pyMatchEnd, h1, h2]
  simp

/-! ### The claims -/

/-- Claim C3: for every address list accepted by the batch endpoint (between
1 and 50 entries), the response partitions the input: `conversions` is the
order-preserving sequence of successful conversions, `errors` the
order-preserving sequence of failures paired with their inputs (so one
failing address never blocks the others), the two lengths add up to the
input length, and `total` counts the successes. -/
theorem c3_batch_partition (addresses : List String)
    (hmin : 1 ≤ addresses.length) (hmax : addresses.length ≤ 50) :
    (batch_convert_addresses addresses).conversions = addresses.filterMap convOk ∧
    (batch_convert_addresses addresses).errors = addresses.filterMap convErr ∧
    (batch_convert_addresses addresses).conversions.length +
      (batch_convert_addresses addresses).errors.length = addresses.length ∧
    (batch_convert_addresses addresses).total =
      (batch_convert_addresses addresses).conversions.length := by
  have hfold := foldl_batchStep addresses ([], [])
  simp only [batch_convert_addresses, hfold, List.nil_append]
  refine ⟨trivial, trivial, ?_, trivial⟩
  exact filterMap_batch_lengths addresses

theorem c3_batch_partition_witness :
    1 ≤ (["garbage"] : List String).length ∧
    (["garbage"] : List String).length ≤ 50 ∧
    ((batch_convert_addresses ["garbage"]).conversions =
        (["garbage"] : List String).filterMap convOk ∧
     (batch_convert_addresses ["garbage"]).errors =
        (["garbage"] : List String).filterMap convErr ∧
     (batch_convert_addresses ["garbage"]).conversions.length +
       (batch_convert_addresses ["garbage"]).errors.length =
         (["garbage"] : List String).length ∧
     (batch_convert_addresses ["garbage"]).total =
       (batch_convert_addresses ["garbage"]).conversions.length) :=
  ⟨by decide, by decide, c3_batch_partition ["garbage"] (by decide) (by decide)⟩

/-- Claim C4: `detect_address_type` classifies deterministically, trying the
EVM pattern first: an input matching `^0x[0-9a-fA-F]{40}$` yields
`("evm", none)`; otherwise one matching `^[a-z]+1[a-z0-9]{38,}$` is split at
the first `1`, giving `("injective", "inj")` when the text before it equals
`"inj"` and `("cosmos", that text)` otherwise; every other input fails with
the unrecognised-format error carrying the input.  Matching is Python
`re.match` semantics (`PyDollar`: the `$` anchor also accepts one trailing
newline). -/
theorem c4_detect_classification (s : String) :
    (PyDollar EvmPat s → detect_address_type s = Except.ok ("evm", none)) ∧
    (¬ PyDollar EvmPat s → PyDollar BechPat s → beforeFirstOne s = "inj" →
      detect_address_type s = Except.ok ("injective", some "inj")) ∧
    (¬ PyDollar EvmPat s → PyDollar BechPat s → beforeFirstOne s ≠ "inj" →
      detect_address_type s = Except.ok ("cosmos", some (beforeFirstOne s))) ∧
    (¬ PyDollar EvmPat s → ¬ PyDollar BechPat s →
      detect_address_type s = Except.error ("Unrecognised address format: \x27" ++ s ++
        "\x27. Expected a 0x hex address or a bech32 address (e.g. inj1..., cosmos1..., osmo1...).")) := by
  refine ⟨?_, ?_, ?_, ?_⟩
  · intro h
    rw [detect_address_type, if_pos ((evmMatch_iff s).mpr h)]
  · intro h1 h2 h3
    rw [detect_address_type, if_neg (fun hq => h1 ((evmMatch_iff s).mp hq)),
        if_pos ((bechMatch_iff s).mpr h2),
        if_pos (show beforeFirstOne s = INJ_PFX from h3.trans rfl)]
    rfl
  · intro h1 h2 h3
    rw [detect_address_type, if_neg (fun hq => h1 ((evmMatch_iff s).mp hq)),
        if_pos ((bechMatch_iff s).mpr h2),
        if_neg (show ¬(beforeFirstOne s = INJ_PFX) from fun hq => h3 (hq.trans rfl))]
  · intro h1 h2
    rw [detect_address_type, if_neg (fun hq => h1 ((evmMatch_iff s).mp hq)),
        if_neg (fun hq => h2 ((bechMatch_iff s).mp hq))]

theorem c4_detect_classification_witness :
    PyDollar EvmPat "0xAF79152AC5dF276D9A8e1E2E22822f9713474902" ∧
    detect_address_type "0xAF79152AC5dF276D9A8e1E2E22822f9713474902" =
      Except.ok ("evm", none) := by
  have hp : PyDollar EvmPat "0xAF79152AC5dF276D9A8e1E2E22822f9713474902" :=
    Or.inl ⟨("AF79152AC5dF276D9A8e1E2E22822f9713474902").data, by decide, by decide,
      by decide⟩
  exact ⟨hp, (c4_detect_classification "0xAF79152AC5dF276D9A8e1E2E22822f9713474902").1 hp⟩

/-- Claim C5: an address that carries the target human-readable part `inj`
but whose checksum does not verify fails in `injective_to_evm` with the
bech32-decode error (never with the prefix-mismatch error): the checksum is
checked inside `bech32_decode` before `_decode_bech32` ever compares the
prefix. -/
theorem c5_checksum_first (a : String) (t : List Char)
    (hshape : a.data = 'i' :: 'n' :: 'j' :: '1' :: t)
    (hchars : ∀ c ∈ t, c ∈ CHARSET)
    (hlen7 : 6 ≤ t.length) (hlen90 : a.data.length ≤ 90)
    (hbad : bech32_verify_checksum ['i', 'n', 'j'] (t.map charsetIdx) = false) :
    injective_to_evm a = Except.error ("Invalid bech32 address: \x27" ++ a ++ "\x27") := by
  have hrange : ∀ c ∈ a.data, 33 ≤ c.toNat ∧ c.toNat ≤ 126 := by
    intro c hc
    rw [hshape] at hc
    simp only [List.mem_cons] at hc
    rcases hc with rfl | rfl | rfl | rfl | hc
    · exact ⟨by decide, by decide⟩
    · exact ⟨by decide, by decide⟩
    · exact ⟨by decide, by decide⟩
    · exact ⟨by decide, by decide⟩
    · exact charset_range c (hchars c hc)
  have hlen90x : t.length + 4 ≤ 90 := by
    rw [hshape] at hlen90
    simpa using hlen90
  have hmt : t.map pyToLower = t :=
    (List.map_congr_left (fun c hc => charset_lower_fixed c (hchars c hc))).trans
      (List.map_id t)
  have hlowfix : a.data.map pyToLower = a.data := by
    rw [hshape, List.map_cons, List.map_cons, List.map_cons, List.map_cons, hmt,
        (by decide : pyToLower 'i' = 'i'), (by decide : pyToLower 'n' = 'n'),
        (by decide : pyToLower 'j' = 'j'), (by decide : pyToLower '1' = '1')]
  have hdecn : bech32_decode a = none := by
    have hany : (a.data.any (fun c => decide (c.toNat < 33 ∨ 126 < c.toNat))) = false := by
      rw [List.any_eq_false]
      intro c hc
      simp only [decide_eq_true_eq]
      push_neg
      exact ⟨(hrange c hc).1, (hrange c hc).2⟩
    rw [bech32_decode, hany, if_neg (by simp)]
    rw [if_neg (show ¬(a.data.map pyToLower ≠ a.data ∧ a.data.map pyToUpper ≠ a.data)
      from fun hq => hq.1 hlowfix)]
    rw [hlowfix, hshape]
    have hlast : lastOneIdx ('i' :: 'n' :: 'j' :: '1' :: t) = some 3 := by
      have h1t : lastOneIdx ('1' :: t) = some 0 := by
        rw [lastOneIdx, lastOneIdx_none t (fun c hc => charset_no_one c (hchars c hc))]
        simp
      simpa using lastOneIdx_append_of_some ['i', 'n', 'j'] ('1' :: t) 0 h1t
    rw [hlast]
    dsimp only
    rw [if_neg (by
      simp only [List.length_cons]
      omega)]
    rw [show ('i' :: 'n' :: 'j' :: '1' :: t).drop (3 + 1) = t from rfl]
    have hall : t.all (fun c => CHARSET.contains c) = true := by
      rw [List.all_eq_true]
      intro c hc
      exact List.elem_eq_true_of_mem (hchars c hc)
    rw [hall, if_pos rfl]
    rw [show ('i' :: 'n' :: 'j' :: '1' :: t).take 3 = ['i', 'n', 'j'] from rfl]
    rw [hbad, if_neg (by simp)]
  rw [injective_to_evm, decode_bech32, hdecn]

theorem c5_checksum_first_witness :
    bech32_verify_checksum ['i', 'n', 'j']
      (("4au322k9munkmx5wrchz9q30juf5wjgz2cfqkv").data.map charsetIdx) = false ∧
    injective_to_evm "inj14au322k9munkmx5wrchz9q30juf5wjgz2cfqkv" =
      Except.error ("Invalid bech32 address: \x27" ++
        "inj14au322k9munkmx5wrchz9q30juf5wjgz2cfqkv" ++ "\x27") :=
  ⟨by decide, c5_checksum_first "inj14au322k9munkmx5wrchz9q30juf5wjgz2cfqkv"
    ("4au322k9munkmx5wrchz9q30juf5wjgz2cfqkv").data (by decide) (by decide)
    (by decide) (by decide) (by decide)⟩

/-- Claim C7 counterexample: `injective_to_cosmos` does not fail on an empty
target chain indicator: with the valid target-prefixed input shown and the
empty string as prefix it succeeds, returning the bech32 string with an
empty human-readable part, instead of any invalid-prefix error. -/
theorem c7_counterexample :
    decode_bech32 "inj14au322k9munkmx5wrchz9q30juf5wjgz2cfqku" (some INJ_PFX) =
      Except.ok [175, 121, 21, 42, 197, 223, 39, 109, 154, 142, 30, 46, 34, 130,
        47, 151, 19, 71, 73, 2] ∧
    injective_to_cosmos "inj14au322k9munkmx5wrchz9q30juf5wjgz2cfqku" "" =
      Except.ok "14au322k9munkmx5wrchz9q30juf5wjgzazyvc6" :=
  ⟨by decide, by decide⟩

/-- Claim C7 amended: `injective_to_cosmos` performs no validation of the
caller-supplied prefix at all: for every prefix string `p` (empty or not,
inside or outside the bech32 charset) and every address that decodes under
the target prefix, it succeeds and returns the bech32 encoding of the
decoded payload under `p`. -/
theorem c7_no_validation (a p : String) (b : List Nat)
    (hdec : decode_bech32 a (some INJ_PFX) = Except.ok b) :
    injective_to_cosmos a p = Except.ok (bech32_encode p (groupsOf b)) := by
  obtain ⟨_, _, hb20, hb256, _⟩ := decode_bech32_ok_full a (some INJ_PFX) b hdec
  rw [injective_to_cosmos]
  simp only [hdec, convertbits_8_5_eq b hb20 hb256]

theorem c7_no_validation_witness :
    decode_bech32 "inj14au322k9munkmx5wrchz9q30juf5wjgz2cfqku" (some INJ_PFX) =
      Except.ok [175, 121, 21, 42, 197, 223, 39, 109, 154, 142, 30, 46, 34, 130,
        47, 151, 19, 71, 73, 2] ∧
    injective_to_cosmos "inj14au322k9munkmx5wrchz9q30juf5wjgz2cfqku" "#bad pfx#" =
      Except.ok (bech32_encode "#bad pfx#" (groupsOf [175, 121, 21, 42, 197, 223,
        39, 109, 154, 142, 30, 46, 34, 130, 47, 151, 19, 71, 73, 2])) :=
  ⟨by decide, c7_no_validation "inj14au322k9munkmx5wrchz9q30juf5wjgz2cfqku" "#bad pfx#"
    [175, 121, 21, 42, 197, 223, 39, 109, 154, 142, 30, 46, 34, 130, 47, 151,
      19, 71, 73, 2] (by decide)⟩

/-- Claim C10: a concrete cosmos-sourced input accepted by `convert_address`
whose reported source chain indicator (`"a"`, the text before the first `1`)
differs from the human-readable part the bech32 codec actually used
(`"a1b"`, the text before the last `1`). -/
theorem c10_detected_pfx_differs :
    convert_address "a1b1qqqqqqqqqqqqqqqqqqqqqqqqqqqqqqqq6n87c9" = Except.ok
      ⟨"a1b1qqqqqqqqqqqqqqqqqqqqqqqqqqqqqqqq6n87c9",
       "inj1qqqqqqqqqqqqqqqqqqqqqqqqqqqqqqqqe2hm49",
       "0x0000000000000000000000000000000000000000",
       "cosmos", some "a"⟩ ∧
    bech32_decode "a1b1qqqqqqqqqqqqqqqqqqqqqqqqqqqqqqqq6n87c9" =
      some ("a1b", List.replicate 32 0) ∧
    ("a" : String) ≠ "a1b" :=
  ⟨by decide, by decide, by decide⟩

/-- Claim C1: for every valid EVM address string (`0x` plus 40 hex digits,
representing the 20 bytes `b = hexPairs hs`), `evm_to_injective` succeeds
with a bech32 string `t`; `injective_to_evm t` returns `0x` plus the
lowercase hex of `b`, which is exactly the lowercased input; and `t`
decodes (under the target prefix) back to the same 20 bytes `b`. -/
theorem c1_evm_roundtrip (s : String) (hs : List Char)
    (hshape : s.data = '0' :: 'x' :: hs) (hlen : hs.length = 40)
    (hhex : ∀ c ∈ hs, isHexChar c = true) :
    ∃ t b, evm_to_injective s = Except.ok t ∧
      bytesFromHex ⟨s.data.drop 2⟩ = some b ∧ b.length = 20 ∧
      injective_to_evm t = Except.ok ("0x" ++ bytesToHex b) ∧
      "0x" ++ bytesToHex b = pyStrLower s ∧
      decode_bech32 t (some INJ_PFX) = Except.ok b := by
  have hshape2 : s.data = ('0' :: 'x' :: hs) ++ [] := by simpa using hshape
  have hm : evmMatch s = true := (evmMatch_iff s).mpr (Or.inl ⟨hs, hshape, hlen, hhex⟩)
  obtain ⟨henc, hfh, hp20, hp256⟩ :=
    evm_to_injective_of_match s hs [] hshape2 hlen hhex (Or.inl rfl) hm
  have hdec2 : decode_bech32 (bech32_encode INJ_PFX (groupsOf (hexPairs hs)))
      (some INJ_PFX) = Except.ok (hexPairs hs) :=
    decode_bech32_encode_groups ['i', 'n', 'j'] (hexPairs hs) (some INJ_PFX)
      (by decide) (by decide) (by decide) (by decide) hp20 hp256 (Or.inr (by decide))
  refine ⟨_, hexPairs hs, henc, hfh, hp20, ?_, ?_, hdec2⟩
  · rw [injective_to_evm]
    simp only [hdec2]
  · have hfm := flatMap_hexPairs 40 hs hlen hhex (by norm_num)
    have hdata : ('0' :: 'x' :: (hexPairs hs).flatMap byteToHexChars) =
        s.data.map pyToLower := by
      rw [hfm, hshape, List.map_cons, List.map_cons,
          (by decide : pyToLower '0' = '0'), (by decide : pyToLower 'x' = 'x')]
    exact congrArg String.mk hdata

theorem c1_evm_roundtrip_witness :
    ("0xAF79152AC5dF276D9A8e1E2E22822f9713474902" : String).data =
      '0' :: 'x' :: ("AF79152AC5dF276D9A8e1E2E22822f9713474902" : String).data ∧
    ("AF79152AC5dF276D9A8e1E2E22822f9713474902" : String).data.length = 40 ∧
    (∀ c ∈ ("AF79152AC5dF276D9A8e1E2E22822f9713474902" : String).data,
      isHexChar c = true) ∧
    (∃ t b, evm_to_injective "0xAF79152AC5dF276D9A8e1E2E22822f9713474902" =
        Except.ok t ∧
      bytesFromHex ⟨("0xAF79152AC5dF276D9A8e1E2E22822f9713474902" : String).data.drop 2⟩ =
        some b ∧ b.length = 20 ∧
      injective_to_evm t = Except.ok ("0x" ++ bytesToHex b) ∧
      "0x" ++ bytesToHex b = pyStrLower "0xAF79152AC5dF276D9A8e1E2E22822f9713474902" ∧
      decode_bech32 t (some INJ_PFX) = Except.ok b) :=
  ⟨by decide, by decide, by decide,
    c1_evm_roundtrip "0xAF79152AC5dF276D9A8e1E2E22822f9713474902"
      ("AF79152AC5dF276D9A8e1E2E22822f9713474902" : String).data
      (by decide) (by decide) (by decide)⟩

/-- Claim C2: whenever `convert_address` succeeds, the `injective_address`
and `evm_address` fields of the result decode to the identical 20-byte
payload (bech32-decoding the one equals hex-parsing the other), in each of
the three source branches. -/
theorem c2_convert_consistent (s : String) (r : WalletConversionResponse)
    (h : convert_address s = Except.ok r) :
    ∃ b : List Nat, b.length = 20 ∧
      decode_bech32 r.injective_address (some INJ_PFX) = Except.ok b ∧
      parseEvmHex r.evm_address = some b := by
  rcases convert_address_ok_inversion s r h with
    ⟨inj, hm, hconv, rfl⟩ | ⟨evm, _, _, _, hconv, rfl⟩ |
    ⟨inj, evm, _, _, _, hcos, hinj, rfl⟩
  · obtain ⟨hs, tail, hshape, hlen, hhex, htail, _, rfl⟩ :=
      evm_to_injective_ok_inversion s inj hconv
    have hp20 : (hexPairs hs).length = 20 := hexPairs_length 40 hs hlen (by norm_num)
    have hp256 := hexPairs_lt256 40 hs hlen hhex
    refine ⟨hexPairs hs, hp20, ?_, ?_⟩
    · exact decode_bech32_encode_groups ['i', 'n', 'j'] (hexPairs hs) (some INJ_PFX)
        (by decide) (by decide) (by decide) (by decide) hp20 hp256 (Or.inr (by decide))
    · exact parseEvmHex_pyStrLower s hs tail hshape hlen hhex htail
  · obtain ⟨b, hdec, rfl⟩ := injective_to_evm_ok_inversion s evm hconv
    obtain ⟨_, _, hb20, hb256, _⟩ := decode_bech32_ok_full s (some INJ_PFX) b hdec
    exact ⟨b, hb20, hdec, parseEvmHex_hex_output b hb256⟩
  · obtain ⟨b, hdec, rfl⟩ := injective_to_evm_ok_inversion inj evm hinj
    obtain ⟨_, _, hb20, hb256, _⟩ := decode_bech32_ok_full inj (some INJ_PFX) b hdec
    exact ⟨b, hb20, hdec, parseEvmHex_hex_output b hb256⟩

theorem c2_convert_consistent_witness :
    convert_address "0xAF79152AC5dF276D9A8e1E2E22822f9713474902" = Except.ok
      ⟨"0xAF79152AC5dF276D9A8e1E2E22822f9713474902",
       "inj14au322k9munkmx5wrchz9q30juf5wjgz2cfqku",
       "0xaf79152ac5df276d9a8e1e2e22822f9713474902", "evm", none⟩ ∧
    (∃ b : List Nat, b.length = 20 ∧
      decode_bech32 "inj14au322k9munkmx5wrchz9q30juf5wjgz2cfqku" (some INJ_PFX) =
        Except.ok b ∧
      parseEvmHex "0xaf79152ac5df276d9a8e1e2e22822f9713474902" = some b) :=
  ⟨by decide,
    c2_convert_consistent "0xAF79152AC5dF276D9A8e1E2E22822f9713474902"
      ⟨"0xAF79152AC5dF276D9A8e1E2E22822f9713474902",
       "inj14au322k9munkmx5wrchz9q30juf5wjgz2cfqku",
       "0xaf79152ac5df276d9a8e1e2e22822f9713474902", "evm", none⟩ (by decide)⟩

/-- Claim C8: a cosmos-sourced conversion derives both output encodings
from the bytes decoded once from the input: on every cosmos-branch success
of `convert_address`, `evm_address` equals `0x` plus the hex of the bytes
decoded directly from the input, and `injective_address` is the target
re-encoding of those same bytes.  (The code literally re-decodes the fresh
`inj` string for `evm_address`; the round trip through the canonical
encoding provably returns the identical byte list.) -/
theorem c8_cosmos_single_decode (s : String) (r : WalletConversionResponse)
    (h : convert_address s = Except.ok r) (hc : r.source_type = "cosmos") :
    ∃ b, decode_bech32 s none = Except.ok b ∧
      r.evm_address = "0x" ++ bytesToHex b ∧
      r.injective_address = bech32_encode INJ_PFX (groupsOf b) := by
  rcases convert_address_ok_inversion s r h with
    ⟨inj, _, _, rfl⟩ | ⟨evm, _, _, _, _, rfl⟩ |
    ⟨inj, evm, _, _, _, hcos, hinj, rfl⟩
  · simp at hc
  · simp at hc
  · obtain ⟨b, hdec, hb20, hb256, rfl⟩ := cosmos_to_injective_ok_inversion s inj hcos
    obtain ⟨b2, hdec2, rfl⟩ := injective_to_evm_ok_inversion _ evm hinj
    have hre : decode_bech32 (bech32_encode INJ_PFX (groupsOf b)) (some INJ_PFX) =
        Except.ok b :=
      decode_bech32_encode_groups ['i', 'n', 'j'] b (some INJ_PFX)
        (by decide) (by decide) (by decide) (by decide) hb20 hb256 (Or.inr (by decide))
    have hb2b : b2 = b := by
      rw [hre] at hdec2
      exact (Except.ok.inj hdec2).symm
    subst hb2b
    exact ⟨b2, hdec, rfl, rfl⟩

theorem c8_cosmos_single_decode_witness :
    convert_address "cosmos14au322k9munkmx5wrchz9q30juf5wjgzq37yyy" = Except.ok
      ⟨"cosmos14au322k9munkmx5wrchz9q30juf5wjgzq37yyy",
       "inj14au322k9munkmx5wrchz9q30juf5wjgz2cfqku",
       "0xaf79152ac5df276d9a8e1e2e22822f9713474902", "cosmos", some "cosmos"⟩ ∧
    (∃ b, decode_bech32 "cosmos14au322k9munkmx5wrchz9q30juf5wjgzq37yyy" none =
        Except.ok b ∧
      ("0xaf79152ac5df276d9a8e1e2e22822f9713474902" : String) = "0x" ++ bytesToHex b ∧
      ("inj14au322k9munkmx5wrchz9q30juf5wjgz2cfqku" : String) =
        bech32_encode INJ_PFX (groupsOf b)) :=
  ⟨by decide,
    c8_cosmos_single_decode "cosmos14au322k9munkmx5wrchz9q30juf5wjgzq37yyy"
      ⟨"cosmos14au322k9munkmx5wrchz9q30juf5wjgzq37yyy",
       "inj14au322k9munkmx5wrchz9q30juf5wjgz2cfqku",
       "0xaf79152ac5df276d9a8e1e2e22822f9713474902", "cosmos", some "cosmos"⟩
      (by decide) (by decide)⟩

/-- Claim C6 counterexample: cross-prefix re-encoding is not the identity
for every non-empty charset prefix: with the 52-character prefix of `q`s
(non-empty, all characters in the bech32 charset), `injective_to_cosmos`
produces a 92-character string, which `cosmos_to_injective` then rejects
(bech32 caps addresses at 90 characters), so the composition is an error
rather than the original address. -/
theorem c6_counterexample :
    (("qqqqqqqqqqqqqqqqqqqqqqqqqqqqqqqqqqqqqqqqqqqqqqqqqqqq" : String).data ≠ [] ∧
      ∀ c ∈ ("qqqqqqqqqqqqqqqqqqqqqqqqqqqqqqqqqqqqqqqqqqqqqqqqqqqq" : String).data,
        c ∈ CHARSET) ∧
    injective_to_cosmos "inj14au322k9munkmx5wrchz9q30juf5wjgz2cfqku"
      "qqqqqqqqqqqqqqqqqqqqqqqqqqqqqqqqqqqqqqqqqqqqqqqqqqqq" = Except.ok
      "qqqqqqqqqqqqqqqqqqqqqqqqqqqqqqqqqqqqqqqqqqqqqqqqqqqq14au322k9munkmx5wrchz9q30juf5wjgz5cn50l" ∧
    cosmos_to_injective
      "qqqqqqqqqqqqqqqqqqqqqqqqqqqqqqqqqqqqqqqqqqqqqqqqqqqq14au322k9munkmx5wrchz9q30juf5wjgz5cn50l" =
      Except.error ("Invalid bech32 address: \x27" ++
        "qqqqqqqqqqqqqqqqqqqqqqqqqqqqqqqqqqqqqqqqqqqqqqqqqqqq14au322k9munkmx5wrchz9q30juf5wjgz5cn50l" ++
        "\x27") ∧
    (Except.error ("Invalid bech32 address: \x27" ++
        "qqqqqqqqqqqqqqqqqqqqqqqqqqqqqqqqqqqqqqqqqqqqqqqqqqqq14au322k9munkmx5wrchz9q30juf5wjgz5cn50l" ++
        "\x27") : Except String String) ≠
      Except.ok "inj14au322k9munkmx5wrchz9q30juf5wjgz2cfqku" :=
  ⟨⟨by decide, by decide⟩, by decide, by decide, by decide⟩

/-- Claim C6 amended: the cross-prefix round trip is the identity once the
prefix is also short enough for the result to stay within the 90-character
bech32 bound (`p.length ≤ 51` suffices for a 39-character data part) and
the target address is in canonical (lowercase) form:
`cosmos_to_injective (injective_to_cosmos a p) = ok a` for every `a` that
decodes under the target prefix and is fixed by lowercasing, and every
non-empty `p` over the bech32 charset with at most 51 characters. -/
theorem c6_roundtrip_amended (a p : String) (b : List Nat)
    (hdec : decode_bech32 a (some INJ_PFX) = Except.ok b)
    (hlow : a.data.map pyToLower = a.data)
    (hp1 : p.data ≠ []) (hp2 : ∀ c ∈ p.data, c ∈ CHARSET)
    (hplen : p.data.length ≤ 51) :
    ∃ t, injective_to_cosmos a p = Except.ok t ∧
      cosmos_to_injective t = Except.ok a := by
  obtain ⟨ha, hb20, hb256⟩ := canonical_of_decode_lower a b hdec hlow
  refine ⟨bech32_encode p (groupsOf b), ?_, ?_⟩
  · rw [injective_to_cosmos]
    simp only [hdec, convertbits_8_5_eq b hb20 hb256]
  · have hdecp : decode_bech32 (bech32_encode p (groupsOf b)) none = Except.ok b :=
      decode_bech32_encode_groups p.data b none hp1
        (fun c hc => charset_range c (hp2 c hc))
        (fun c hc => charset_lower_fixed c (hp2 c hc))
        hplen hb20 hb256 (Or.inl rfl)
    rw [cosmos_to_injective]
    simp only [hdecp, convertbits_8_5_eq b hb20 hb256]
    rw [← ha]

theorem c6_roundtrip_amended_witness :
    decode_bech32 "inj14au322k9munkmx5wrchz9q30juf5wjgz2cfqku" (some INJ_PFX) =
      Except.ok [175, 121, 21, 42, 197, 223, 39, 109, 154, 142, 30, 46, 34, 130,
        47, 151, 19, 71, 73, 2] ∧
    ("inj14au322k9munkmx5wrchz9q30juf5wjgz2cfqku" : String).data.map pyToLower =
      ("inj14au322k9munkmx5wrchz9q30juf5wjgz2cfqku" : String).data ∧
    ("zen" : String).data ≠ [] ∧ (∀ c ∈ ("zen" : String).data, c ∈ CHARSET) ∧
    ("zen" : String).data.length ≤ 51 ∧
    (∃ t, injective_to_cosmos "inj14au322k9munkmx5wrchz9q30juf5wjgz2cfqku" "zen" =
        Except.ok t ∧
      cosmos_to_injective t = Except.ok "inj14au322k9munkmx5wrchz9q30juf5wjgz2cfqku") :=
  ⟨by decide, by decide, by decide, by decide, by decide,
    c6_roundtrip_amended "inj14au322k9munkmx5wrchz9q30juf5wjgz2cfqku" "zen"
      [175, 121, 21, 42, 197, 223, 39, 109, 154, 142, 30, 46, 34, 130,
        47, 151, 19, 71, 73, 2]
      (by decide) (by decide) (by decide) (by decide) (by decide)⟩

/-- Claim C9: the auto-detect path and the explicit path disagree on letter
case: for every canonical (lowercase, decodable) target address `a`, the
explicit `injective_to_evm` accepts the all-uppercase form and returns the
same EVM address as for `a` (the decoder lowercases single-case input),
while `convert_address` rejects the all-uppercase form with the
unrecognised-format error, because the detection regexes require `0x` or a
lowercase prefix. -/
theorem c9_case_divergence (a : String) (b : List Nat)
    (hdec : decode_bech32 a (some INJ_PFX) = Except.ok b)
    (hlow : a.data.map pyToLower = a.data) :
    injective_to_evm a = Except.ok ("0x" ++ bytesToHex b) ∧
    injective_to_evm (pyStrUpper a) = Except.ok ("0x" ++ bytesToHex b) ∧
    convert_address (pyStrUpper a) = Except.error
      ("Unrecognised address format: \x27" ++ pyStrUpper a ++
       "\x27. Expected a 0x hex address or a bech32 address (e.g. inj1..., cosmos1..., osmo1...).") := by
  obtain ⟨ha, hb20, hb256⟩ := canonical_of_decode_lower a b hdec hlow
  obtain ⟨M, hadata, hMmem, hM38⟩ :
      ∃ M, a.data = 'i' :: 'n' :: 'j' :: '1' :: M ∧ (∀ c ∈ M, c ∈ CHARSET) ∧
        M.length = 38 := by
    refine ⟨(groupsOf b ++ bech32_create_checksum ['i', 'n', 'j'] (groupsOf b)).map
      (fun d => CHARSET.getD d 'q'), ?_, ?_, ?_⟩
    · rw [ha]
      rfl
    · intro c hc
      obtain ⟨d, hd, rfl⟩ := List.mem_map.mp hc
      refine charset_getD_mem d ?_
      rcases List.mem_append.mp hd with h | h
      · exact groupsOf_lt b d h
      · exact checksum_all_lt _ _ d h
    · rw [List.length_map, List.length_append, groupsOf_length b hb20,
          create_checksum_length]
  have hUdata : (pyStrUpper a).data = 'I' :: 'N' :: 'J' :: '1' :: M.map pyToUpper := by
    show a.data.map pyToUpper = _
    rw [hadata]
    rfl
  have hUlen : (pyStrUpper a).data.length = 42 := by
    rw [hUdata]
    simp [hM38]
  have hU2 : (pyStrUpper a).data.take 2 = ['I', 'N'] := by
    rw [hUdata]
    rfl
  have hdl2 : (pyStrUpper a).data.dropLast =
      'I' :: (('N' :: 'J' :: '1' :: M.map pyToUpper).take 40) := by
    rw [List.dropLast_eq_take, hUlen, hUdata]
    rfl
  have hdlt : (pyStrUpper a).data.dropLast.take 2 = ['I', 'N'] := by
    rw [hdl2]
    rfl
  have hevmU : evmMatch (pyStrUpper a) = false := by
    rw [evmMatch]
    exact pyMatchEnd_false evmCore _
      (evmCore_false_of_take2 _ (by rw [hU2]; decide))
      (evmCore_false_of_take2 _ (by rw [hdlt]; decide))
  have hbc1 : bechCore (pyStrUpper a).data = false := by
    rw [hUdata]
    exact bechCore_false_of_head 'I' _ (by decide) (by decide)
  have hbc2 : bechCore (pyStrUpper a).data.dropLast = false := by
    rw [hdl2]
    exact bechCore_false_of_head 'I' _ (by decide) (by decide)
  have hbechU : bechMatch (pyStrUpper a) = false := by
    rw [bechMatch]
    exact pyMatchEnd_false bechCore _ hbc1 hbc2
  refine ⟨?_, ?_, ?_⟩
  · rw [injective_to_evm]
    simp only [hdec]
  · have hdecU : decode_bech32 (pyStrUpper a) (some INJ_PFX) = Except.ok b :=
      decode_bech32_upper_ok a (some INJ_PFX) b hlow hdec
    rw [injective_to_evm]
    simp only [hdecU]
  · rw [convert_address, detect_address_type, hevmU, hbechU]
    rfl

theorem c9_case_divergence_witness :
    decode_bech32 "inj14au322k9munkmx5wrchz9q30juf5wjgz2cfqku" (some INJ_PFX) =
      Except.ok [175, 121, 21, 42, 197, 223, 39, 109, 154, 142, 30, 46, 34, 130,
        47, 151, 19, 71, 73, 2] ∧
    ("inj14au322k9munkmx5wrchz9q30juf5wjgz2cfqku" : String).data.map pyToLower =
      ("inj14au322k9munkmx5wrchz9q30juf5wjgz2cfqku" : String).data ∧
    (injective_to_evm "inj14au322k9munkmx5wrchz9q30juf5wjgz2cfqku" =
        Except.ok ("0x" ++ bytesToHex [175, 121, 21, 42, 197, 223, 39, 109, 154,
          142, 30, 46, 34, 130, 47, 151, 19, 71, 73, 2]) ∧
      injective_to_evm (pyStrUpper "inj14au322k9munkmx5wrchz9q30juf5wjgz2cfqku") =
        Except.ok ("0x" ++ bytesToHex [175, 121, 21, 42, 197, 223, 39, 109, 154,
          142, 30, 46, 34, 130, 47, 151, 19, 71, 73, 2]) ∧
      convert_address (pyStrUpper "inj14au322k9munkmx5wrchz9q30juf5wjgz2cfqku") =
        Except.error ("Unrecognised address format: \x27" ++
          pyStrUpper "inj14au322k9munkmx5wrchz9q30juf5wjgz2cfqku" ++
          "\x27. Expected a 0x hex address or a bech32 address (e.g. inj1..., cosmos1..., osmo1...).")) :=
  ⟨by decide, by decide,
    c9_case_divergence "inj14au322k9munkmx5wrchz9q30juf5wjgz2cfqku"
      [175, 121, 21, 42, 197, 223, 39, 109, 154, 142, 30, 46, 34, 130,
        47, 151, 19, 71, 73, 2] (by decide) (by decide)⟩

end WalletVerify
